import Mathlib

/-!
# gcmap: a lock-guarded map with time-based expiry

A shallow embedding of `gcmap.go`.

* The Go map `map[interface{}]*storageItemContainer` is a finite association
  with one slot per key (`GoMap`).  Every container pointer is created by
  `Store`/`StoreOrUpdate`, stored in exactly one slot and never handed out, so
  the in-place writes through the pointer are writes to the slot.
* Keys are comparable values with a lawful, decidable equality.
* `time.Time` is an instant on the integer line (nanoseconds), `time.Now()` is
  a clock reading passed to the operation, `time.Duration` is an `int64`.
* `sync.RWMutex` is explicit state (`RWMutex`): an operation that cannot take
  the lock does not return, which is the result `none`.
* The order in which Go walks a map is not fixed: `Range` and the sweep take the
  walk order as an argument, and the theorems hold for every enumeration
  (`GoMap.IterOrder`).
-/

namespace gcmap

/-! ## Time -/

/-- An instant, `time.Time`, in nanoseconds. -/
abbrev Time := Int

/-- A `time.Duration`: an `int64` count of nanoseconds. -/
abbrev Duration := Int

/-- Two's complement wrap-around of an integer into the `int64` range. -/
def wrapInt64 (x : Int) : Int := (x + 2 ^ 63) % 2 ^ 64 - 2 ^ 63

/-- The constant `time.Millisecond`. -/
def Millisecond : Duration := 1000000

/-- The constant `time.Hour`. -/
def Hour : Duration := 3600000000000

/-- The constant `defaultGCInterval = time.Hour`. -/
def defaultGCInterval : Duration := Hour

/-- The constant `defaultEntryTTL = time.Hour * 24`. -/
def defaultEntryTTL : Duration := Hour * 24

/-- The method `Time.Add`. -/
def Time.Add (t : Time) (d : Duration) : Time := t + d

/-- The method `Time.Before`. -/
def Time.Before (t u : Time) : Bool := decide (t < u)

/-! ## The reader/writer lock -/

/-- State of a `sync.RWMutex`: how many read holds are outstanding and whether
the write lock is held.  The zero value is the unlocked mutex. -/
structure RWMutex where
  readers : Nat
  writer : Bool
  deriving DecidableEq, Repr

namespace RWMutex

/-- The unlocked mutex (Go's zero value). -/
def unlocked : RWMutex := ⟨0, false⟩

/-- The method `Lock`: returns once there is no reader and no writer. -/
def Lock (m : RWMutex) : Option RWMutex :=
  if m.readers = 0 ∧ m.writer = false then some { m with writer := true } else none

/-- The method `Unlock`: releases the write lock (a fatal error when it is not held). -/
def Unlock (m : RWMutex) : Option RWMutex :=
  if m.writer = true then some { m with writer := false } else none

/-- The method `RLock`: returns once there is no writer; adds one read hold. -/
def RLock (m : RWMutex) : Option RWMutex :=
  if m.writer = false then some { m with readers := m.readers + 1 } else none

/-- The method `RUnlock`: drops one read hold (a fatal error when there is none). -/
def RUnlock (m : RWMutex) : Option RWMutex :=
  if 0 < m.readers then some { m with readers := m.readers - 1 } else none

end RWMutex

/-! ## The map -/

/-- The struct `storageItemContainer`. -/
structure storageItemContainer (V : Type) where
  lastUpdate : Time
  data : V
  deriving DecidableEq, Repr

/-- Slot list operations of a Go map: lookup `m[k]`. -/
def slotGet {K C : Type} [DecidableEq K] (k : K) : List (K × C) → Option C
  | [] => none
  | (k', c) :: rest => if k' = k then some c else slotGet k rest

/-- Slot list operations of a Go map: assignment `m[k] = c`. -/
def slotSet {K C : Type} [DecidableEq K] (k : K) (c : C) : List (K × C) → List (K × C)
  | [] => [(k, c)]
  | (k', c') :: rest => if k' = k then (k, c) :: rest else (k', c') :: slotSet k c rest

/-- Slot list operations of a Go map: `delete(m, k)`. -/
def slotDelete {K C : Type} [DecidableEq K] (k : K) (l : List (K × C)) : List (K × C) :=
  l.filter (fun e => decide (e.1 ≠ k))

theorem slotSet_keys {K C : Type} [DecidableEq K] (k : K) (c : C) (l : List (K × C)) :
    (slotSet k c l).map Prod.fst = if k ∈ l.map Prod.fst then l.map Prod.fst
      else l.map Prod.fst ++ [k] := by
  induction l with
  | nil => simp [slotSet]
  | cons e rest ih =>
    obtain ⟨k', c'⟩ := e
    by_cases h : k' = k
    · subst h; simp [slotSet]
    · have h' : ¬ k = k' := fun e => h e.symm
      simp only [slotSet, h, if_false, List.map_cons, ih, List.mem_cons, h', false_or]
      split <;> simp

theorem slotSet_nodup {K C : Type} [DecidableEq K] (k : K) (c : C) (l : List (K × C))
    (h : (l.map Prod.fst).Nodup) : ((slotSet k c l).map Prod.fst).Nodup := by
  rw [slotSet_keys]
  split
  · exact h
  · rename_i hk
    exact List.Nodup.append h (List.nodup_singleton k) (by simpa using hk)

theorem slotDelete_nodup {K C : Type} [DecidableEq K] (k : K) (l : List (K × C))
    (h : (l.map Prod.fst).Nodup) : ((slotDelete k l).map Prod.fst).Nodup :=
  (List.Sublist.map Prod.fst (List.filter_sublist l)).nodup h

/-- A Go map: a list of slots in which no key occurs twice. -/
structure GoMap (K C : Type) where
  entries : List (K × C)
  nodup : (entries.map Prod.fst).Nodup

namespace GoMap

variable {K C : Type} [DecidableEq K]

/-- The map made by `make(map[...]..., 0)`. -/
def empty : GoMap K C := ⟨[], List.nodup_nil⟩

/-- Lookup `m[k]`; `none` when `k` has no entry. -/
def get (m : GoMap K C) (k : K) : Option C := slotGet k m.entries

/-- Assignment `m[k] = c`. -/
def set (m : GoMap K C) (k : K) (c : C) : GoMap K C :=
  ⟨slotSet k c m.entries, slotSet_nodup k c m.entries m.nodup⟩

/-- The builtin `delete(m, k)`. -/
def delete (m : GoMap K C) (k : K) : GoMap K C :=
  ⟨slotDelete k m.entries, slotDelete_nodup k m.entries m.nodup⟩

/-- Number of entries, `len(m)`. -/
def len (m : GoMap K C) : Nat := m.entries.length

/-- The orders in which a `for ... range m` loop may walk the map: every
enumeration of its entries. -/
def IterOrder (m : GoMap K C) (order : List (K × C)) : Prop := order.Perm m.entries

instance decidableIterOrder [DecidableEq C] (m : GoMap K C) (order : List (K × C)) :
    Decidable (m.IterOrder order) :=
  inferInstanceAs (Decidable (order.Perm m.entries))

end GoMap

/-! ## Storage and its operations -/

/-- The struct `Storage`. -/
structure Storage (K V : Type) where
  mu : RWMutex
  data : GoMap K (storageItemContainer V)
  gcInterval : Duration
  entryTTL : Duration

section Operations

variable {K V : Type} [DecidableEq K]

/-- The method `Store`: takes the write lock, assigns a fresh container holding
`v` and the clock reading, releases the lock. -/
def Store (s : Storage K V) (k : K) (v : V) (now : Time) : Option (Storage K V) := do
  let mu ← s.mu.Lock
  let data := s.data.set k { lastUpdate := now, data := v }
  let mu ← mu.Unlock
  pure { s with mu := mu, data := data }

/-- The method `StoreOrUpdate`; a nil callback is `none`.  The deferred `Unlock`
runs on both return paths. -/
def StoreOrUpdate (s : Storage K V) (k : K) (v : V) (fn : Option (V → V → V)) (now : Time) :
    Option (Storage K V) := do
  let mu ← s.mu.Lock
  match s.data.get k with
  | none =>
    let data := s.data.set k { lastUpdate := now, data := v }
    let mu ← mu.Unlock
    pure { s with mu := mu, data := data }
  | some container =>
    match fn with
    | some f =>
      let container := { container with data := f container.data v }
      let container := { container with lastUpdate := now }
      let data := s.data.set k container
      let mu ← mu.Unlock
      pure { s with mu := mu, data := data }
    | none =>
      let mu ← mu.Unlock
      pure { s with mu := mu }

/-- The method `Load`; `default` is the nil interface value.  The miss path
returns before `RUnlock`. -/
def Load [Inhabited V] (s : Storage K V) (k : K) : Option (Storage K V × V × Bool) := do
  let mu ← s.mu.RLock
  match s.data.get k with
  | none => pure ({ s with mu := mu }, default, false)
  | some container =>
    let mu ← mu.RUnlock
    pure ({ s with mu := mu }, container.data, true)

/-- The method `Delete`. -/
def Delete (s : Storage K V) (k : K) : Option (Storage K V) := do
  let mu ← s.mu.Lock
  let data := s.data.delete k
  let mu ← mu.Unlock
  pure { s with mu := mu, data := data }

/-- The pair `(k, v.data)` that `Range` hands to the visitor for a slot. -/
def visited (e : K × storageItemContainer V) : K × V := (e.1, e.2.data)

/-- The `for k, v := range s.data` loop of `Range`, walking the slots in the
given order.  The visitor is a Go closure: its captured variables are the
state `σ`.  The result is the closure state after the loop and the record of
the calls made, each with the value the visitor returned; the loop breaks after
the first call that returns false. -/
def rangeLoop {σ : Type} (fn : σ → K → V → Bool × σ) :
    σ → List (K × storageItemContainer V) → σ × List ((K × V) × Bool)
  | st, [] => (st, [])
  | st, (k, v) :: rest =>
    let r := fn st k v.data
    if r.1 then
      let out := rangeLoop fn r.2 rest
      (out.1, ((k, v.data), true) :: out.2)
    else (r.2, [((k, v.data), false)])

/-- The method `Range`, walking the map in the order `order`: read lock, loop,
read unlock. -/
def Range {σ : Type} (s : Storage K V) (fn : σ → K → V → Bool × σ) (st : σ)
    (order : List (K × storageItemContainer V)) :
    Option (Storage K V × σ × List ((K × V) × Bool)) := do
  let mu ← s.mu.RLock
  let out := rangeLoop fn st order
  let mu ← mu.RUnlock
  pure ({ s with mu := mu }, out.1, out.2)

/-- The inner `for k, v := range s.data` loop of `gcLoop`, walking the slots in
the given order: a slot whose `lastUpdate` is before `deleteOlderThan` has its
key deleted from the map. -/
def gcSweep (deleteOlderThan : Time) :
    GoMap K (storageItemContainer V) → List (K × storageItemContainer V) →
      GoMap K (storageItemContainer V)
  | data, [] => data
  | data, (k, v) :: rest =>
    if v.lastUpdate.Before deleteOlderThan then gcSweep deleteOlderThan (data.delete k) rest
    else gcSweep deleteOlderThan data rest

/-- One iteration of the `for range ticker.C` loop of `gcLoop`, at clock reading
`now`, walking the map in the order `order`. -/
def gcTick (s : Storage K V) (now : Time) (order : List (K × storageItemContainer V)) :
    Option (Storage K V) := do
  let mu ← s.mu.Lock
  let deleteOlderThan := Time.Add now (wrapInt64 (s.entryTTL * -1))
  let data := gcSweep deleteOlderThan s.data order
  let mu ← mu.Unlock
  pure { s with mu := mu, data := data }

/-- The method `gcLoop` over a finite run of ticks, each with the clock reading
of its pass and the order of its walk. -/
def gcLoop (s : Storage K V) : List (Time × List (K × storageItemContainer V)) →
    Option (Storage K V)
  | [] => some s
  | tick :: rest => do
    let s1 ← gcTick s tick.1 tick.2
    gcLoop s1 rest

/-- Every walk of a run of ticks enumerates the map as it is when its pass
starts. -/
def ValidWalks (s : Storage K V) : List (Time × List (K × storageItemContainer V)) → Prop
  | [] => True
  | tick :: rest =>
    s.data.IterOrder tick.2 ∧ ∀ s1, gcTick s tick.1 tick.2 = some s1 → ValidWalks s1 rest

/-- The type `OptionFn`. -/
abbrev OptionFn (K V : Type) := Storage K V → Storage K V

/-- The option `WithGCInterval`. -/
def WithGCInterval (gcInterval : Duration) : OptionFn K V :=
  fun s => { s with gcInterval := gcInterval }

/-- The option `WithEntryTTL`. -/
def WithEntryTTL (entryTTL : Duration) : OptionFn K V :=
  fun s => { s with entryTTL := entryTTL }

/-- The constructor `NewStorage`.  The flag tells whether `go st.gcLoop()` was
executed. -/
def NewStorage (options : List (OptionFn K V)) : Storage K V × Bool :=
  let st : Storage K V :=
    { mu := RWMutex.unlocked, data := GoMap.empty, gcInterval := defaultGCInterval,
      entryTTL := defaultEntryTTL }
  let st := options.foldl (fun st opt => opt st) st
  (st, decide (st.gcInterval > 0 ∧ st.entryTTL > 0))

/-! ### Vocabulary of the sweep theorems -/

/-- The keys that a walk of `order` deletes. -/
def staleKeys (deleteOlderThan : Time) (order : List (K × storageItemContainer V)) : List K :=
  (order.filter fun e => e.2.lastUpdate.Before deleteOlderThan).map Prod.fst

/-- The slots a pass at `now` keeps: those written at or after `now - entryTTL`. -/
def fresh (now : Time) (entryTTL : Duration) (e : K × storageItemContainer V) : Bool :=
  decide (now - entryTTL ≤ e.2.lastUpdate)

end Operations

/-! ## Options as data, and runs of calls -/

/-- One of the two options the package exports, with its argument. -/
inductive OptionSpec where
  | gcInterval (d : Duration)
  | entryTTL (d : Duration)
  deriving DecidableEq, Repr

/-- The argument of the last `WithGCInterval` of a list of options, if any. -/
def lastGCInterval (opts : List OptionSpec) : Option Duration :=
  (opts.filterMap fun o => match o with
    | .gcInterval d => some d
    | .entryTTL _ => none).getLast?

/-- The argument of the last `WithEntryTTL` of a list of options, if any. -/
def lastEntryTTL (opts : List OptionSpec) : Option Duration :=
  (opts.filterMap fun o => match o with
    | .gcInterval _ => none
    | .entryTTL d => some d).getLast?

/-- One call of a public method, or one pass of the sweeper, with its
arguments; for the clock-reading calls the reading, for the walking calls the
walk order. -/
inductive Call (K V σ : Type) where
  | store (k : K) (v : V) (now : Time)
  | storeOrUpdate (k : K) (v : V) (fn : Option (V → V → V)) (now : Time)
  | load (k : K)
  | delete (k : K)
  | range (fn : σ → K → V → Bool × σ) (st : σ) (order : List (K × storageItemContainer V))
  | sweep (now : Time) (order : List (K × storageItemContainer V))

section Runs

variable {K V σ : Type} [DecidableEq K]

/-- The option function that an `OptionSpec` stands for. -/
def OptionSpec.toFn : OptionSpec → OptionFn K V
  | .gcInterval d => WithGCInterval d
  | .entryTTL d => WithEntryTTL d

/-- Whether the call is `Delete`. -/
def Call.isDelete : Call K V σ → Bool
  | .delete _ => true
  | _ => false

/-- Whether the call is `Load`. -/
def Call.isLoad : Call K V σ → Bool
  | .load _ => true
  | _ => false

/-- Whether the call is a pass of the sweeper. -/
def Call.isSweep : Call K V σ → Bool
  | .sweep _ _ => true
  | _ => false

/-- Whether the call is `Store`, `StoreOrUpdate`, `Delete` or a pass of the
sweeper: the calls that take the write lock. -/
def Call.isWrite : Call K V σ → Bool
  | .store _ _ _ => true
  | .storeOrUpdate _ _ _ _ => true
  | .delete _ => true
  | .sweep _ _ => true
  | _ => false

/-- The storage a call leaves behind, when it returns. -/
def Call.run [Inhabited V] (s : Storage K V) : Call K V σ → Option (Storage K V)
  | .store k v now => Store s k v now
  | .storeOrUpdate k v fn now => StoreOrUpdate s k v fn now
  | .load k => (Load s k).map fun r => r.1
  | .delete k => Delete s k
  | .range fn st order => (Range s fn st order).map fun r => r.1
  | .sweep now order => gcTick s now order

/-- A sequence of calls, each running to its return before the next starts. -/
def runCalls [Inhabited V] (s : Storage K V) : List (Call K V σ) → Option (Storage K V)
  | [] => some s
  | c :: rest => do
    let s1 ← c.run s
    runCalls s1 rest

/-- A sequence of `Store` calls, each with its key, value and clock reading. -/
def storeAll (s : Storage K V) : List (K × V × Time) → Option (Storage K V)
  | [] => some s
  | w :: rest => do
    let s1 ← Store s w.1 w.2.1 w.2.2
    storeAll s1 rest

/-- The number of distinct keys that have an entry. -/
def distinctKeys (s : Storage K V) : Nat := (s.data.entries.map Prod.fst).toFinset.card

end Runs

/-! ## Load, statement by statement

The map holds pointers.  To follow `Load` statement by statement the
containers live in a heap and the map holds their addresses; a call of another
goroutine can run between two statements of `Load` whenever the lock lets it. -/

namespace Stepwise

/-- The struct `Storage` with the container pointers explicit: `data` maps a key
to the address of its container in `heap`. -/
structure PtrStorage (K V : Type) where
  mu : RWMutex
  data : GoMap K Nat
  heap : List (storageItemContainer V)

variable {K V : Type} [DecidableEq K]

/-- The statements of `Load` from `s.RLock()` to `s.RUnlock()`: the lookup under
the read lock.  The result is the container pointer, `none` on the miss path
(which returns with the read lock still held). -/
def LoadLookup (s : PtrStorage K V) (k : K) : Option (PtrStorage K V × Option Nat) := do
  let mu ← s.mu.RLock
  match s.data.get k with
  | none => pure ({ s with mu := mu }, none)
  | some container =>
    let mu ← mu.RUnlock
    pure ({ s with mu := mu }, some container)

/-- The last statement of `Load`, `return container.data, true`: the field is
read through the pointer in the heap as it is at that moment. -/
def LoadReturn [Inhabited V] (s : PtrStorage K V) (container : Option Nat) : Option (V × Bool) :=
  match container with
  | none => some (default, false)
  | some p => (s.heap.get? p).map fun c => (c.data, true)

/-- The method `Load` run without interruption. -/
def Load [Inhabited V] (s : PtrStorage K V) (k : K) : Option (PtrStorage K V × V × Bool) := do
  let r ← LoadLookup s k
  let out ← LoadReturn r.1 r.2
  pure (r.1, out)

/-- The method `StoreOrUpdate`: a new container is allocated for an absent key,
the container of a present key is written in place. -/
def StoreOrUpdate (s : PtrStorage K V) (k : K) (v : V) (fn : Option (V → V → V)) (now : Time) :
    Option (PtrStorage K V) := do
  let mu ← s.mu.Lock
  match s.data.get k with
  | none =>
    let data := s.data.set k s.heap.length
    let heap := s.heap ++ [{ lastUpdate := now, data := v }]
    let mu ← mu.Unlock
    pure { s with mu := mu, data := data, heap := heap }
  | some p =>
    match fn with
    | some f =>
      let container ← s.heap.get? p
      let container := { container with data := f container.data v }
      let container := { container with lastUpdate := now }
      let heap := s.heap.set p container
      let mu ← mu.Unlock
      pure { s with mu := mu, heap := heap }
    | none =>
      let mu ← mu.Unlock
      pure { s with mu := mu }

/-- The method `Delete`: the key leaves the map, the container stays in the
heap for whoever still holds its pointer. -/
def Delete (s : PtrStorage K V) (k : K) : Option (PtrStorage K V) := do
  let mu ← s.mu.Lock
  let data := s.data.delete k
  let mu ← mu.Unlock
  pure { s with mu := mu, data := data }

/-- The storage in which key 1 points to the container at address 0, holding
value 5 written at instant 10. -/
def onePtr : PtrStorage Nat Nat :=
  { mu := RWMutex.unlocked, data := ⟨[(1, 0)], by decide⟩, heap := [⟨10, 5⟩] }

end Stepwise

/-! ## Sample states -/

/-- A storage with no entry, default configuration, lock free. -/
def emptyStorage : Storage Nat Nat :=
  { mu := RWMutex.unlocked, data := GoMap.empty, gcInterval := defaultGCInterval,
    entryTTL := defaultEntryTTL }

/-- A storage holding keys 1 and 2, written at instants 10 and 20, with a TTL of
5 and a sweep interval of 3. -/
def sampleStorage : Storage Nat Nat :=
  { mu := RWMutex.unlocked,
    data := ⟨[(1, ⟨10, 5⟩), (2, ⟨20, 6⟩)], by decide⟩,
    gcInterval := 3, entryTTL := 5 }

/-- The storage of the GC test: sweep interval and TTL of one millisecond, keys
1 to 4 written at instant 0. -/
def gcTestStorage : Storage Nat Nat :=
  { mu := RWMutex.unlocked,
    data := ⟨[(1, ⟨0, 1⟩), (2, ⟨0, 1⟩), (3, ⟨0, 1⟩), (4, ⟨0, 1⟩)], by decide⟩,
    gcInterval := Millisecond, entryTTL := Millisecond }

/-- The passes of the GC test during its sleep of five milliseconds: one per
millisecond; the second one empties the map. -/
def gcTestPasses : List (Time × List (Nat × storageItemContainer Nat)) :=
  [(1000000, gcTestStorage.data.entries), (2000000, gcTestStorage.data.entries),
   (3000000, []), (4000000, []), (5000000, [])]

/-- A visitor that counts its calls and always continues. -/
def countAll : Nat → Nat → Nat → Bool × Nat := fun n _ _ => (true, n + 1)

/-- A visitor that counts its calls and stops at its second call. -/
def stopAtSecond : Nat → Nat → Nat → Bool × Nat := fun n _ _ => (decide (n < 1), n + 1)

/-- A first call on a storage built with `WithGCInterval(0)`, as the benchmarks
build theirs. -/
def benchPre : List (Call Nat Nat Nat) := [.store 1 1 0]

/-- The calls that follow `benchPre`: a store to another key, a `Load` that
hits, a `Range`, a `StoreOrUpdate` with a nil callback, a `Load` that misses. -/
def benchPost : List (Call Nat Nat Nat) :=
  [.store 2 2 5, .load 1, .range countAll 0 [(1, ⟨0, 1⟩), (2, ⟨5, 2⟩)],
   .storeOrUpdate 1 7 none 9, .load 9]

/-- The four writes of the Range test, all at instant 0. -/
def rangeTestWrites : List (Nat × Nat × Time) := [(1, 1, 0), (2, 1, 0), (3, 1, 0), (4, 1, 0)]

/-! ## Facts about the map -/

theorem GoMap.ext_entries {K C : Type} {m m' : GoMap K C} (h : m.entries = m'.entries) : m = m' := by
  cases m; cases m'; cases h; rfl

section MapFacts

variable {K C : Type} [DecidableEq K]

theorem slotGet_slotSet_same (k : K) (c : C) (l : List (K × C)) :
    slotGet k (slotSet k c l) = some c := by
  induction l with
  | nil => simp [slotSet, slotGet]
  | cons e rest ih =>
    obtain ⟨k', c'⟩ := e
    by_cases h : k' = k
    · simp [slotSet, slotGet, h]
    · simp [slotSet, slotGet, h, ih]

theorem slotGet_slotDelete_same (k : K) (l : List (K × C)) :
    slotGet k (slotDelete k l) = none := by
  induction l with
  | nil => simp [slotDelete, slotGet]
  | cons e rest ih =>
    obtain ⟨k', c'⟩ := e
    by_cases h : k' = k
    · have e1 : slotDelete k ((k', c') :: rest) = slotDelete k rest := by
        simp [slotDelete, h]
      rw [e1]; exact ih
    · have e1 : slotDelete k ((k', c') :: rest) = (k', c') :: slotDelete k rest := by
        simp [slotDelete, h]
      rw [e1]; simp [slotGet, h, ih]

theorem slotSet_of_slotGet (k : K) (c : C) (l : List (K × C)) (h : slotGet k l = some c) :
    slotSet k c l = l := by
  induction l with
  | nil => simp [slotGet] at h
  | cons e rest ih =>
    obtain ⟨k', c'⟩ := e
    by_cases hk : k' = k
    · simp [slotGet, hk] at h
      simp [slotSet, hk, h]
    · simp [slotGet, hk] at h
      simp [slotSet, hk, ih h]

theorem GoMap.get_set_same (m : GoMap K C) (k : K) (c : C) : (m.set k c).get k = some c :=
  slotGet_slotSet_same k c m.entries

theorem GoMap.get_delete_same (m : GoMap K C) (k : K) : (m.delete k).get k = none :=
  slotGet_slotDelete_same k m.entries

end MapFacts

/-! ## Facts about the lock -/

theorem RWMutex.Lock_unlocked : RWMutex.unlocked.Lock = some ⟨0, true⟩ := rfl

theorem RWMutex.Unlock_held : RWMutex.Unlock ⟨0, true⟩ = some RWMutex.unlocked := rfl

/-! ## Writes followed by a read -/

section WriteRead

variable {K V : Type} [DecidableEq K]

theorem Store_unlocked (s : Storage K V) (k : K) (v : V) (now : Time)
    (h : s.mu = RWMutex.unlocked) :
    Store s k v now = some { s with data := s.data.set k ⟨now, v⟩ } := by
  obtain ⟨mu, data, gi, ttl⟩ := s
  simp only at h
  subst h
  rfl

theorem Delete_unlocked (s : Storage K V) (k : K) (h : s.mu = RWMutex.unlocked) :
    Delete s k = some { s with data := s.data.delete k } := by
  obtain ⟨mu, data, gi, ttl⟩ := s
  simp only at h
  subst h
  rfl

theorem Load_hit [Inhabited V] (s : Storage K V) (k : K) (c : storageItemContainer V)
    (h : s.mu = RWMutex.unlocked) (hc : s.data.get k = some c) :
    Load s k = some (s, c.data, true) := by
  obtain ⟨mu, data, gi, ttl⟩ := s
  simp only at h hc
  subst h
  simp only [Load, RWMutex.RLock, RWMutex.unlocked, hc]
  rfl

theorem Load_miss [Inhabited V] (s : Storage K V) (k : K)
    (h : s.mu = RWMutex.unlocked) (hc : s.data.get k = none) :
    Load s k = some ({ s with mu := ⟨1, false⟩ }, default, false) := by
  obtain ⟨mu, data, gi, ttl⟩ := s
  simp only at h hc
  subst h
  simp only [Load, RWMutex.RLock, RWMutex.unlocked, hc]
  rfl

theorem StoreOrUpdate_absent (s : Storage K V) (k : K) (v : V) (fn : Option (V → V → V))
    (now : Time) (h : s.mu = RWMutex.unlocked) (hc : s.data.get k = none) :
    StoreOrUpdate s k v fn now = some { s with data := s.data.set k ⟨now, v⟩ } := by
  obtain ⟨mu, data, gi, ttl⟩ := s
  simp only at h hc
  subst h
  simp only [StoreOrUpdate, RWMutex.Lock_unlocked, hc]
  rfl

theorem StoreOrUpdate_present (s : Storage K V) (k : K) (v : V) (f : V → V → V)
    (now : Time) (c : storageItemContainer V) (h : s.mu = RWMutex.unlocked)
    (hc : s.data.get k = some c) :
    StoreOrUpdate s k v (some f) now = some { s with data := s.data.set k ⟨now, f c.data v⟩ } := by
  obtain ⟨mu, data, gi, ttl⟩ := s
  simp only at h hc
  subst h
  simp only [StoreOrUpdate, RWMutex.Lock_unlocked, hc]
  rfl

theorem StoreOrUpdate_present_nil (s : Storage K V) (k : K) (v : V)
    (now : Time) (c : storageItemContainer V) (h : s.mu = RWMutex.unlocked)
    (hc : s.data.get k = some c) :
    StoreOrUpdate s k v none now = some s := by
  obtain ⟨mu, data, gi, ttl⟩ := s
  simp only at h hc
  subst h
  simp only [StoreOrUpdate, RWMutex.Lock_unlocked, hc]
  rfl

/-- A write operation returns exactly when it finds the lock free. -/
theorem Store_returns_iff (s : Storage K V) (k : K) (v : V) (now : Time) :
    (Store s k v now).isSome = true ↔ s.mu = RWMutex.unlocked := by
  constructor
  · intro h
    obtain ⟨⟨r, w⟩, data, gi, ttl⟩ := s
    by_cases hl : r = 0 ∧ w = false
    · obtain ⟨rfl, rfl⟩ := hl; rfl
    · simp [Store, RWMutex.Lock, hl] at h
  · intro h
    rw [Store_unlocked s k v now h]; rfl

theorem Delete_returns_iff (s : Storage K V) (k : K) :
    (Delete s k).isSome = true ↔ s.mu = RWMutex.unlocked := by
  constructor
  · intro h
    obtain ⟨⟨r, w⟩, data, gi, ttl⟩ := s
    by_cases hl : r = 0 ∧ w = false
    · obtain ⟨rfl, rfl⟩ := hl; rfl
    · simp [Delete, RWMutex.Lock, hl] at h
  · intro h
    rw [Delete_unlocked s k h]; rfl

end WriteRead

/-! ## Store, Delete and StoreOrUpdate seen through Load -/

section Contracts

variable {K V : Type} [DecidableEq K]

/-- C1: on every storage whose lock is free, for every key, value and clock
reading, `Store(k, v)` returns and the `Load(k)` that follows returns
`(v, true)`, whether or not `k` had an entry before. -/
theorem Store_then_Load [Inhabited V] (s : Storage K V) (k : K) (v : V) (now : Time)
    (h : s.mu = RWMutex.unlocked) :
    ∃ s1, Store s k v now = some s1 ∧ Load s1 k = some (s1, v, true) := by
  refine ⟨_, Store_unlocked s k v now h, ?_⟩
  exact Load_hit _ k ⟨now, v⟩ h (GoMap.get_set_same s.data k _)

/-- C2: on every storage whose lock is free and for every key, present or not,
`Delete(k)` returns and the `Load(k)` that follows returns the nil value with
`found = false`. -/
theorem Delete_then_Load [Inhabited V] (s : Storage K V) (k : K)
    (h : s.mu = RWMutex.unlocked) :
    ∃ s1, Delete s k = some s1 ∧
      Load s1 k = some ({ s1 with mu := ⟨1, false⟩ }, default, false) := by
  refine ⟨_, Delete_unlocked s k h, ?_⟩
  exact Load_miss _ k h (GoMap.get_delete_same s.data k)

/-- C3: when `k` has an entry with value `v1`, `StoreOrUpdate(k, v2, f)` with a
non-nil `f`, run at clock reading `now`, returns a storage whose entry for `k`
holds `f(v1, v2)` with `lastUpdate = now`, and `Load(k)` then returns
`(f(v1, v2), true)`. -/
theorem StoreOrUpdate_merge [Inhabited V] (s : Storage K V) (k : K) (v2 : V) (f : V → V → V)
    (now : Time) (c : storageItemContainer V)
    (h : s.mu = RWMutex.unlocked) (hc : s.data.get k = some c) :
    ∃ s1, StoreOrUpdate s k v2 (some f) now = some s1 ∧
      s1.data.get k = some { lastUpdate := now, data := f c.data v2 } ∧
      Load s1 k = some (s1, f c.data v2, true) := by
  refine ⟨_, StoreOrUpdate_present s k v2 f now c h hc, GoMap.get_set_same s.data k _, ?_⟩
  exact Load_hit _ k ⟨now, f c.data v2⟩ h (GoMap.get_set_same s.data k _)

/-- C4: when `k` has no entry, `StoreOrUpdate(k, v, f)` has the same outcome as
`Store(k, v)` at the same clock reading, for every callback `f`, nil or not;
with the lock free both return, and the state they return is the same. -/
theorem StoreOrUpdate_absent_eq_Store (s : Storage K V) (k : K) (v : V)
    (fn : Option (V → V → V)) (now : Time) (hc : s.data.get k = none) :
    StoreOrUpdate s k v fn now = Store s k v now ∧
      (s.mu = RWMutex.unlocked →
        StoreOrUpdate s k v fn now = some { s with data := s.data.set k ⟨now, v⟩ }) := by
  constructor
  · simp only [StoreOrUpdate, Store, hc]
  · intro h
    exact StoreOrUpdate_absent s k v fn now h hc

/-- C5: when `k` has an entry, `StoreOrUpdate(k, v, nil)` returns the storage it
was given: the whole map is unchanged, and the entry for `k` keeps its value
and its `lastUpdate`. -/
theorem StoreOrUpdate_nil_present (s : Storage K V) (k : K) (v : V) (now : Time)
    (c : storageItemContainer V)
    (h : s.mu = RWMutex.unlocked) (hc : s.data.get k = some c) :
    ∃ s1, StoreOrUpdate s k v none now = some s1 ∧ s1 = s ∧ s1.data.get k = some c :=
  ⟨s, StoreOrUpdate_present_nil s k v now c h hc, rfl, hc⟩

end Contracts

/-- Witness of C1 on the sample storage: key 1 is overwritten. -/
theorem Store_then_Load_witness :
    sampleStorage.mu = RWMutex.unlocked ∧
      ∃ s1, Store sampleStorage 1 42 100 = some s1 ∧ Load s1 1 = some (s1, 42, true) :=
  ⟨rfl, Store_then_Load sampleStorage 1 42 100 rfl⟩

/-- Witness of C2 on the sample storage: key 2 is deleted. -/
theorem Delete_then_Load_witness :
    sampleStorage.mu = RWMutex.unlocked ∧
      ∃ s1, Delete sampleStorage 2 = some s1 ∧
        Load s1 2 = some ({ s1 with mu := ⟨1, false⟩ }, default, false) :=
  ⟨rfl, Delete_then_Load sampleStorage 2 rfl⟩

/-- Witness of C3 on the sample storage: key 1 holds 5, the merge subtracts. -/
theorem StoreOrUpdate_merge_witness :
    sampleStorage.mu = RWMutex.unlocked ∧
      sampleStorage.data.get 1 = some ⟨10, 5⟩ ∧
      ∃ s1, StoreOrUpdate sampleStorage 1 3 (some fun old new => old - new) 100 = some s1 ∧
        s1.data.get 1 = some { lastUpdate := 100, data := 5 - 3 } ∧
        Load s1 1 = some (s1, 5 - 3, true) :=
  ⟨rfl, rfl, StoreOrUpdate_merge sampleStorage 1 3 (fun old new => old - new) 100 ⟨10, 5⟩ rfl rfl⟩

/-- Witness of C4 on the sample storage: key 9 has no entry. -/
theorem StoreOrUpdate_absent_eq_Store_witness :
    sampleStorage.data.get 9 = none ∧
      (StoreOrUpdate sampleStorage 9 4 (some fun old new => old + new) 100
          = Store sampleStorage 9 4 100 ∧
        (sampleStorage.mu = RWMutex.unlocked →
          StoreOrUpdate sampleStorage 9 4 (some fun old new => old + new) 100
            = some { sampleStorage with data := sampleStorage.data.set 9 ⟨100, 4⟩ })) :=
  ⟨rfl, StoreOrUpdate_absent_eq_Store sampleStorage 9 4 (some fun old new => old + new) 100 rfl⟩

/-- Witness of C5 on the sample storage: key 2 has an entry. -/
theorem StoreOrUpdate_nil_present_witness :
    sampleStorage.mu = RWMutex.unlocked ∧
      sampleStorage.data.get 2 = some ⟨20, 6⟩ ∧
      ∃ s1, StoreOrUpdate sampleStorage 2 7 none 100 = some s1 ∧ s1 = sampleStorage ∧
        s1.data.get 2 = some ⟨20, 6⟩ :=
  ⟨rfl, rfl, StoreOrUpdate_nil_present sampleStorage 2 7 100 ⟨20, 6⟩ rfl rfl⟩

/-! ## Range -/

section RangeFacts

variable {K V σ : Type}

theorem visited_keys (l : List (K × storageItemContainer V)) :
    (l.map visited).map Prod.fst = l.map Prod.fst := by
  simp [List.map_map, Function.comp_def, visited]

theorem rangeLoop_calls_follow_order (fn : σ → K → V → Bool × σ) (st : σ)
    (l : List (K × storageItemContainer V)) :
    ((rangeLoop fn st l).2.map Prod.fst) <+: (l.map visited) := by
  induction l generalizing st with
  | nil => simp [rangeLoop]
  | cons e rest ih =>
    obtain ⟨k, v⟩ := e
    simp only [rangeLoop]
    split
    · simpa [visited] using ih (fn st k v.data).2
    · simp [visited]

theorem rangeLoop_all_true (fn : σ → K → V → Bool × σ) (st : σ)
    (l : List (K × storageItemContainer V)) (ht : ∀ st k v, (fn st k v).1 = true) :
    (rangeLoop fn st l).2.map Prod.fst = l.map visited := by
  induction l generalizing st with
  | nil => simp [rangeLoop]
  | cons e rest ih =>
    obtain ⟨k, v⟩ := e
    simp [rangeLoop, ht, ih, visited]

theorem rangeLoop_stop (fn : σ → K → V → Bool × σ) (st : σ)
    (l : List (K × storageItemContainer V)) (n : Nat) (p : K × V)
    (h : (rangeLoop fn st l).2.get? n = some (p, false)) :
    (rangeLoop fn st l).2.length = n + 1 := by
  induction l generalizing st n with
  | nil => simp [rangeLoop] at h
  | cons e rest ih =>
    obtain ⟨k, v⟩ := e
    simp only [rangeLoop] at h ⊢
    split at h
    · rename_i ht
      simp only [ht, if_true]
      cases n with
      | zero => simp at h
      | succ m =>
        simp only [List.get?_cons_succ] at h
        simp [ih _ m h]
    · rename_i hf
      simp only [hf]
      cases n with
      | zero => simp
      | succ m => simp at h

theorem rangeLoop_before_stop (fn : σ → K → V → Bool × σ) (st : σ)
    (l : List (K × storageItemContainer V)) (i : Nat)
    (h : i + 1 < (rangeLoop fn st l).2.length) :
    ((rangeLoop fn st l).2.get? i).map Prod.snd = some true := by
  induction l generalizing st i with
  | nil => simp [rangeLoop] at h
  | cons e rest ih =>
    obtain ⟨k, v⟩ := e
    simp only [rangeLoop] at h ⊢
    split
    · rename_i ht
      simp only [ht, if_true] at h
      cases i with
      | zero => simp
      | succ m =>
        simp only [List.get?_cons_succ]
        exact ih _ m (by simpa using h)
    · rename_i hf
      simp [hf] at h

theorem rangeLoop_ne_nil (fn : σ → K → V → Bool × σ) (st : σ)
    (l : List (K × storageItemContainer V)) (h : l ≠ []) :
    1 ≤ (rangeLoop fn st l).2.length := by
  cases l with
  | nil => exact absurd rfl h
  | cons e rest =>
    obtain ⟨k, v⟩ := e
    simp only [rangeLoop]
    split <;> simp

theorem Range_no_writer [DecidableEq K] (s : Storage K V) (fn : σ → K → V → Bool × σ) (st : σ)
    (order : List (K × storageItemContainer V)) (hw : s.mu.writer = false) :
    Range s fn st order = some (s, (rangeLoop fn st order).1, (rangeLoop fn st order).2) := by
  obtain ⟨⟨r, w⟩, data, gi, ttl⟩ := s
  simp only at hw
  subst hw
  simp [Range, RWMutex.RLock, RWMutex.RUnlock]

end RangeFacts

/-! ## The sweep -/

section SweepFacts

variable {K V : Type} [DecidableEq K]

theorem slotGet_eq_some_iff {C : Type} (l : List (K × C)) (hn : (l.map Prod.fst).Nodup)
    (k : K) (c : C) : slotGet k l = some c ↔ (k, c) ∈ l := by
  induction l with
  | nil => simp [slotGet]
  | cons e rest ih =>
    obtain ⟨k', c'⟩ := e
    have hn' : k' ∉ rest.map Prod.fst ∧ (rest.map Prod.fst).Nodup :=
      List.nodup_cons.mp (by rw [List.map_cons] at hn; exact hn)
    by_cases h : k' = k
    · subst h
      have hnot : ∀ x, (k', x) ∉ rest := fun x hx =>
        hn'.1 (List.mem_map.mpr ⟨(k', x), hx, rfl⟩)
      simp only [slotGet, if_true, List.mem_cons, Prod.mk.injEq, true_and, Option.some.injEq]
      constructor
      · intro e; exact Or.inl e.symm
      · rintro (e | e)
        · exact e.symm
        · exact absurd e (hnot c)
    · have h' : ¬ k = k' := fun e => h e.symm
      simp only [slotGet, h, if_false, List.mem_cons, Prod.mk.injEq, h', false_and, false_or]
      exact ih hn'.2

theorem slotGet_eq_none_iff {C : Type} (l : List (K × C)) (k : K) :
    slotGet k l = none ↔ ∀ c, (k, c) ∉ l := by
  induction l with
  | nil => simp [slotGet]
  | cons e rest ih =>
    obtain ⟨k', c'⟩ := e
    by_cases h : k' = k
    · subst h
      simp only [slotGet, if_true, List.mem_cons, Prod.mk.injEq, true_and, not_or]
      constructor
      · intro e; cases e
      · intro e; exact absurd rfl (e c').1
    · have h' : ¬ k = k' := fun e => h e.symm
      simp only [slotGet, h, if_false, List.mem_cons, Prod.mk.injEq, h', false_and, false_or]
      exact ih

theorem GoMap.get_eq_some_iff {C : Type} (m : GoMap K C) (k : K) (c : C) :
    m.get k = some c ↔ (k, c) ∈ m.entries :=
  slotGet_eq_some_iff m.entries m.nodup k c

theorem GoMap.get_eq_none_iff {C : Type} (m : GoMap K C) (k : K) :
    m.get k = none ↔ ∀ c, (k, c) ∉ m.entries :=
  slotGet_eq_none_iff m.entries k

theorem wrapInt64_neg (d : Int) (hlo : -(2 ^ 63) < d) (hhi : d < 2 ^ 63) :
    wrapInt64 (d * -1) = -d := by
  unfold wrapInt64
  norm_num at hlo hhi ⊢
  omega

theorem gcSweep_entries (cut : Time) (data : GoMap K (storageItemContainer V))
    (order : List (K × storageItemContainer V)) :
    (gcSweep cut data order).entries =
      data.entries.filter fun e => decide (e.1 ∉ staleKeys cut order) := by
  induction order generalizing data with
  | nil => simp [gcSweep, staleKeys]
  | cons e rest ih =>
    obtain ⟨k, v⟩ := e
    have hstale : staleKeys cut ((k, v) :: rest) =
        if v.lastUpdate.Before cut then k :: staleKeys cut rest else staleKeys cut rest := by
      unfold staleKeys
      rw [List.filter_cons]
      split <;> simp
    by_cases h : v.lastUpdate.Before cut = true
    · simp only [gcSweep, h, if_true, ih, GoMap.delete, slotDelete, List.filter_filter, hstale]
      apply List.filter_congr
      intro x _
      by_cases hx : x.1 = k <;> simp [hx]
    · simp only [gcSweep, h, hstale]
      simpa using ih data

theorem gcSweep_filter (cut : Time) (data : GoMap K (storageItemContainer V))
    (order : List (K × storageItemContainer V)) (ho : data.IterOrder order) :
    (gcSweep cut data order).entries =
      data.entries.filter fun e => decide (cut ≤ e.2.lastUpdate) := by
  rw [gcSweep_entries]
  apply List.filter_congr
  intro x hx
  have key : x.1 ∈ staleKeys cut order ↔ x.2.lastUpdate < cut := by
    constructor
    · intro hmem
      obtain ⟨y, hy, hxy⟩ := List.mem_map.mp hmem
      obtain ⟨hyo, hys⟩ := List.mem_filter.mp hy
      have hye : y ∈ data.entries := (List.Perm.mem_iff ho).mp hyo
      have : y = x := List.inj_on_of_nodup_map data.nodup hye hx hxy
      subst this
      simpa [Time.Before] using hys
    · intro hlt
      exact List.mem_map.mpr ⟨x, List.mem_filter.mpr
        ⟨(List.Perm.mem_iff ho).mpr hx, by simpa [Time.Before] using hlt⟩, rfl⟩
  by_cases hs : x.2.lastUpdate < cut
  · simp [key.mpr hs, hs]
  · simp [mt key.mp hs, not_lt.mp hs]

theorem gcTick_unlocked (s : Storage K V) (now : Time)
    (order : List (K × storageItemContainer V)) (h : s.mu = RWMutex.unlocked) :
    gcTick s now order = some { s with
      data := gcSweep (Time.Add now (wrapInt64 (s.entryTTL * -1))) s.data order } := by
  obtain ⟨mu, data, gi, ttl⟩ := s
  simp only at h
  subst h
  rfl

/-- A sweep pass returns exactly when it finds the lock free. -/
theorem gcTick_returns_iff (s : Storage K V) (now : Time)
    (order : List (K × storageItemContainer V)) :
    (gcTick s now order).isSome = true ↔ s.mu = RWMutex.unlocked := by
  constructor
  · intro h
    obtain ⟨⟨r, w⟩, data, gi, ttl⟩ := s
    by_cases hl : r = 0 ∧ w = false
    · obtain ⟨rfl, rfl⟩ := hl; rfl
    · simp [gcTick, RWMutex.Lock, hl] at h
  · intro h
    rw [gcTick_unlocked s now order h]; rfl

theorem GoMap.get_filter_some {C : Type} (m m1 : GoMap K C) (p : K × C → Bool)
    (he : m1.entries = m.entries.filter p) (k : K) (c : C) :
    m1.get k = some c ↔ m.get k = some c ∧ p (k, c) = true := by
  rw [GoMap.get_eq_some_iff, GoMap.get_eq_some_iff, he, List.mem_filter]

theorem GoMap.get_filter_none {C : Type} (m m1 : GoMap K C) (p : K × C → Bool)
    (he : m1.entries = m.entries.filter p) (k : K) :
    m1.get k = none ↔ ∀ c, m.get k = some c → p (k, c) = false := by
  rw [GoMap.get_eq_none_iff, he]
  constructor
  · intro h c hc
    have := h c
    rw [List.mem_filter, not_and] at this
    simpa using this ((GoMap.get_eq_some_iff m k c).mp hc)
  · intro h c hmem
    obtain ⟨h1, h2⟩ := List.mem_filter.mp hmem
    have := h c ((GoMap.get_eq_some_iff m k c).mpr h1)
    rw [h2] at this
    cases this

theorem gcTick_result (s : Storage K V) (now : Time)
    (order : List (K × storageItemContainer V)) (h : s.mu = RWMutex.unlocked)
    (ho : s.data.IterOrder order) (hlo : -(2 ^ 63) < s.entryTTL) (hhi : s.entryTTL < 2 ^ 63) :
    ∃ s1, gcTick s now order = some s1 ∧ s1.mu = s.mu ∧ s1.gcInterval = s.gcInterval ∧
      s1.entryTTL = s.entryTTL ∧
      s1.data.entries = s.data.entries.filter (fresh now s.entryTTL) := by
  refine ⟨_, gcTick_unlocked s now order h, rfl, rfl, rfl, ?_⟩
  simp only [wrapInt64_neg s.entryTTL hlo hhi, Time.Add]
  rw [gcSweep_filter _ _ _ ho]
  apply List.filter_congr
  intro x _
  simp [fresh, sub_eq_add_neg]

theorem gcLoop_keeps (s : Storage K V) (k : K) (c : storageItemContainer V)
    (ticks : List (Time × List (K × storageItemContainer V)))
    (h : s.mu = RWMutex.unlocked) (hlo : -(2 ^ 63) < s.entryTTL) (hhi : s.entryTTL < 2 ^ 63)
    (hc : s.data.get k = some c) (hw : ValidWalks s ticks)
    (ht : ∀ tick ∈ ticks, tick.1 < c.lastUpdate + s.entryTTL) :
    ∃ s1, gcLoop s ticks = some s1 ∧ s1.mu = s.mu ∧ s1.entryTTL = s.entryTTL ∧
      s1.data.get k = some c := by
  induction ticks generalizing s with
  | nil => exact ⟨s, rfl, rfl, rfl, hc⟩
  | cons tick rest ih =>
    obtain ⟨s1, h1, hmu, _, httl, hent⟩ := gcTick_result s tick.1 tick.2 h hw.1 hlo hhi
    have hc1 : s1.data.get k = some c := by
      rw [GoMap.get_filter_some s.data s1.data _ hent]
      refine ⟨hc, ?_⟩
      have hlt : (tick.1 : Int) < c.lastUpdate + s.entryTTL := ht tick (List.mem_cons_self _ _)
      simp only [fresh, decide_eq_true_eq]
      show (tick.1 : Int) - s.entryTTL ≤ c.lastUpdate
      linarith
    obtain ⟨s2, h2, hmu2, httl2, hc2⟩ := ih s1 (hmu.trans h) (httl ▸ hlo) (httl ▸ hhi) hc1
      (hw.2 s1 h1) (fun t htm => httl ▸ ht t (List.mem_cons_of_mem _ htm))
    refine ⟨s2, ?_, hmu2.trans hmu, httl2.trans httl, hc2⟩
    simp only [gcLoop, h1, Option.bind_eq_bind, Option.some_bind]
    exact h2

theorem gcLoop_keeps_absent (s : Storage K V) (k : K)
    (ticks : List (Time × List (K × storageItemContainer V)))
    (h : s.mu = RWMutex.unlocked) (hlo : -(2 ^ 63) < s.entryTTL) (hhi : s.entryTTL < 2 ^ 63)
    (hc : s.data.get k = none) (hw : ValidWalks s ticks) :
    ∃ s1, gcLoop s ticks = some s1 ∧ s1.mu = s.mu ∧ s1.entryTTL = s.entryTTL ∧
      s1.data.get k = none := by
  induction ticks generalizing s with
  | nil => exact ⟨s, rfl, rfl, rfl, hc⟩
  | cons tick rest ih =>
    obtain ⟨s1, h1, hmu, _, httl, hent⟩ := gcTick_result s tick.1 tick.2 h hw.1 hlo hhi
    have hc1 : s1.data.get k = none := by
      rw [GoMap.get_filter_none s.data s1.data _ hent]
      intro c hc'
      rw [hc] at hc'
      cases hc'
    obtain ⟨s2, h2, hmu2, httl2, hc2⟩ := ih s1 (hmu.trans h) (httl ▸ hlo) (httl ▸ hhi) hc1
      (hw.2 s1 h1)
    refine ⟨s2, ?_, hmu2.trans hmu, httl2.trans httl, hc2⟩
    simp only [gcLoop, h1, Option.bind_eq_bind, Option.some_bind]
    exact h2

theorem gcLoop_removes (s : Storage K V) (k : K) (c : storageItemContainer V)
    (passes : List (Time × List (K × storageItemContainer V)))
    (h : s.mu = RWMutex.unlocked) (hlo : -(2 ^ 63) < s.entryTTL) (hhi : s.entryTTL < 2 ^ 63)
    (hk : ∀ c1, s.data.get k = some c1 → c1 = c) (hw : ValidWalks s passes)
    (hex : ∃ tick ∈ passes, c.lastUpdate + s.entryTTL < tick.1) :
    ∃ s1, gcLoop s passes = some s1 ∧ s1.data.get k = none := by
  induction passes generalizing s with
  | nil =>
    obtain ⟨t, ht, _⟩ := hex
    cases ht
  | cons tick rest ih =>
    obtain ⟨s1, h1, hmu, _, httl, hent⟩ := gcTick_result s tick.1 tick.2 h hw.1 hlo hhi
    have hstep : ∀ r, gcLoop s1 rest = r → gcLoop s (tick :: rest) = r := by
      intro r hr
      simp only [gcLoop, h1, Option.bind_eq_bind, Option.some_bind]
      exact hr
    by_cases hst : c.lastUpdate + s.entryTTL < tick.1
    · have hc1 : s1.data.get k = none := by
        rw [GoMap.get_filter_none s.data s1.data _ hent]
        intro c1 hc1
        have := hk c1 hc1
        subst this
        simp only [fresh, decide_eq_false_iff_not, not_le]
        show c1.lastUpdate < (tick.1 : Int) - s.entryTTL
        linarith
      obtain ⟨s2, h2, _, _, hc2⟩ := gcLoop_keeps_absent s1 k rest (hmu.trans h) (httl ▸ hlo)
        (httl ▸ hhi) hc1 (hw.2 s1 h1)
      exact ⟨s2, hstep _ h2, hc2⟩
    · have hk1 : ∀ c1, s1.data.get k = some c1 → c1 = c := fun c1 hc1 =>
        hk c1 ((GoMap.get_filter_some s.data s1.data _ hent k c1).mp hc1).1
      have hex1 : ∃ t ∈ rest, c.lastUpdate + s1.entryTTL < t.1 := by
        obtain ⟨t, ht, hlt⟩ := hex
        rcases List.mem_cons.mp ht with e | hmem
        · subst e; exact absurd hlt hst
        · exact ⟨t, hmem, httl ▸ hlt⟩
      obtain ⟨s2, h2, hc2⟩ := ih s1 (hmu.trans h) (httl ▸ hlo) (httl ▸ hhi) hk1
        (hw.2 s1 h1) hex1
      exact ⟨s2, hstep _ h2, hc2⟩

end SweepFacts

/-! ## The sweep: what one pass does, and expiry -/

section Expiry

variable {K V : Type} [DecidableEq K]

/-- C6: one sweep pass at clock reading `now`, on a storage whose lock is free
and whose TTL has an `int64` negation (every positive TTL, the only ones the
sweeper is started with), leaves exactly the map filtered by
`lastUpdate >= now - entryTTL`, for every walk order: an entry written strictly
before the cutoff is removed, every other entry, also one written at the
cutoff, is kept with its value and timestamp, no entry is added, and every
entry that remains was written at or after `now - entryTTL`. -/
theorem gcTick_filters_stale (s : Storage K V) (now : Time)
    (order : List (K × storageItemContainer V)) (h : s.mu = RWMutex.unlocked)
    (ho : s.data.IterOrder order) (hlo : -(2 ^ 63) < s.entryTTL) (hhi : s.entryTTL < 2 ^ 63) :
    ∃ s1, gcTick s now order = some s1 ∧
      s1.data.entries =
        s.data.entries.filter (fun e => decide (now - s.entryTTL ≤ e.2.lastUpdate)) ∧
      (∀ k c, s.data.get k = some c → c.lastUpdate < now - s.entryTTL →
        s1.data.get k = none) ∧
      (∀ k c, s.data.get k = some c → now - s.entryTTL ≤ c.lastUpdate →
        s1.data.get k = some c) ∧
      (∀ k, s.data.get k = none → s1.data.get k = none) ∧
      (∀ k c, s1.data.get k = some c → now - s.entryTTL ≤ c.lastUpdate) := by
  obtain ⟨s1, h1, _, _, _, hent⟩ := gcTick_result s now order h ho hlo hhi
  refine ⟨s1, h1, hent, ?_, ?_, ?_, ?_⟩
  · intro k c hc hlt
    rw [GoMap.get_filter_none s.data s1.data _ hent]
    intro c1 hc1
    rw [hc] at hc1
    cases hc1
    simp only [fresh, decide_eq_false_iff_not, not_le]
    exact hlt
  · intro k c hc hge
    rw [GoMap.get_filter_some s.data s1.data _ hent]
    exact ⟨hc, by simp only [fresh, decide_eq_true_eq]; exact hge⟩
  · intro k hc
    rw [GoMap.get_filter_none s.data s1.data _ hent]
    intro c1 hc1
    rw [hc] at hc1
    cases hc1
  · intro k c hc
    have := ((GoMap.get_filter_some s.data s1.data _ hent k c).mp hc).2
    simp only [fresh, decide_eq_true_eq] at this
    exact this

/-- C7: if `k` has an entry last written at `t` and the only operations are
sweep passes, each at a clock reading strictly before `t + entryTTL`, then
after any number of such passes, whatever their walk orders, `k` still has the
same entry, value and timestamp. -/
theorem gcLoop_keeps_fresh_entry (s : Storage K V) (k : K) (c : storageItemContainer V)
    (ticks : List (Time × List (K × storageItemContainer V)))
    (h : s.mu = RWMutex.unlocked) (hlo : -(2 ^ 63) < s.entryTTL) (hhi : s.entryTTL < 2 ^ 63)
    (hc : s.data.get k = some c) (hw : ValidWalks s ticks)
    (ht : ∀ tick ∈ ticks, tick.1 < c.lastUpdate + s.entryTTL) :
    ∃ s1, gcLoop s ticks = some s1 ∧ s1.data.get k = some c := by
  obtain ⟨s1, h1, _, _, hc1⟩ := gcLoop_keeps s k c ticks h hlo hhi hc hw ht
  exact ⟨s1, h1, hc1⟩

/-- C8: on a storage with `entryTTL > 0` whose lock is free (and any sweep
interval, so every `gcInterval > 0`),
(1) let `k` hold an entry written at `t`, let the ticker fire at `first`,
`first + gcInterval`, ... with `first <= t + gcInterval`, and let `passes` be the
sweep passes of all the ticks up to an instant `τ >= t + entryTTL + gcInterval`,
each reading the clock no earlier than its tick: then after these passes `k`
has no entry; (2) if every entry was written more than `entryTTL` before a
pass, the map is empty after that pass and `Range` calls the visitor zero
times. -/
theorem gcLoop_removes_stale_entry (s : Storage K V)
    (h : s.mu = RWMutex.unlocked) (hT2 : 0 < s.entryTTL) (hhi : s.entryTTL < 2 ^ 63) :
    (∀ (k : K) (c : storageItemContainer V) (first τ : Time)
        (passes : List (Time × List (K × storageItemContainer V))),
        s.data.get k = some c → ValidWalks s passes →
        first ≤ c.lastUpdate + s.gcInterval →
        (∀ i (hi : i < passes.length),
          first + s.gcInterval * (i : Int) ≤ (passes.get ⟨i, hi⟩).1) →
        c.lastUpdate + s.entryTTL + s.gcInterval ≤ τ →
        τ < first + s.gcInterval * (passes.length : Int) →
        ∃ s1, gcLoop s passes = some s1 ∧ s1.data.get k = none) ∧
    (∀ (σ : Type) (fn : σ → K → V → Bool × σ) (st : σ) (now : Time)
        (order : List (K × storageItemContainer V)),
        s.data.IterOrder order →
        (∀ e ∈ s.data.entries, e.2.lastUpdate + s.entryTTL < now) →
        ∃ s1, gcTick s now order = some s1 ∧ s1.data.entries = [] ∧
          ∀ order1, s1.data.IterOrder order1 → Range s1 fn st order1 = some (s1, st, [])) := by
  have hlo : -(2 ^ 63) < s.entryTTL := lt_trans (by norm_num) hT2
  constructor
  · intro k c first τ passes hc hw hfirst hticks hobs hall
    apply gcLoop_removes s k c passes h hlo hhi (fun c1 hc1 => by rw [hc] at hc1; cases hc1; rfl) hw
    have hpos : 0 < passes.length := by
      rcases Nat.eq_zero_or_pos passes.length with h0 | h0
      · rw [h0] at hall
        simp only [Nat.cast_zero, mul_zero, add_zero] at hall
        have h1 : (first : Int) ≤ c.lastUpdate + s.gcInterval := hfirst
        have h2 : (c.lastUpdate : Int) + s.entryTTL + s.gcInterval ≤ τ := hobs
        have h3 : (τ : Int) < first := hall
        have h4 : (0 : Int) < s.entryTTL := hT2
        linarith
      · exact h0
    have hi : passes.length - 1 < passes.length := Nat.sub_lt hpos Nat.one_pos
    refine ⟨passes.get ⟨passes.length - 1, hi⟩, List.get_mem _ _ _, ?_⟩
    have h1 := hticks (passes.length - 1) hi
    have hcast : ((passes.length - 1 : Nat) : Int) = (passes.length : Int) - 1 := by
      omega
    rw [hcast] at h1
    have h2 : (c.lastUpdate : Int) + s.entryTTL + s.gcInterval ≤ τ := hobs
    have h3 : (τ : Int) < first + s.gcInterval * (passes.length : Int) := hall
    have h5 : (first : Int) + s.gcInterval * ((passes.length : Int) - 1) ≤
        (passes.get ⟨passes.length - 1, hi⟩).1 := h1
    show (c.lastUpdate : Int) + s.entryTTL < (passes.get ⟨passes.length - 1, hi⟩).1
    have h6 : (s.gcInterval : Int) * ((passes.length : Int) - 1) =
        s.gcInterval * (passes.length : Int) - s.gcInterval := by ring
    linarith
  · intro σ fn st now order ho hall
    obtain ⟨s1, h1, hmu, _, _, hent⟩ := gcTick_result s now order h ho hlo hhi
    have hnil : s1.data.entries = [] := by
      rw [hent, List.filter_eq_nil_iff]
      intro e he
      have := hall e he
      simp only [fresh, decide_eq_true_eq, not_le]
      show e.2.lastUpdate < (now : Int) - s.entryTTL
      linarith
    refine ⟨s1, h1, hnil, ?_⟩
    intro order1 ho1
    have : order1 = [] := by
      have hp : order1.Perm [] := by
        have := ho1
        unfold GoMap.IterOrder at this
        rwa [hnil] at this
      exact List.Perm.eq_nil hp
    subst this
    have hw1 : s1.mu.writer = false := by rw [hmu, h]; rfl
    rw [Range_no_writer s1 fn st [] hw1]
    rfl

end Expiry

/-! ## Range: which calls the visitor receives -/

section RangeContracts

variable {K V σ : Type} [DecidableEq K]

theorem mem_visited_iff (m : GoMap K (storageItemContainer V)) (k : K) (v : V) :
    (k, v) ∈ m.entries.map visited ↔ ∃ c, m.get k = some c ∧ c.data = v := by
  constructor
  · intro h
    obtain ⟨e, he, hv⟩ := List.mem_map.mp h
    obtain ⟨k1, c⟩ := e
    simp only [visited, Prod.mk.injEq] at hv
    obtain ⟨rfl, rfl⟩ := hv
    exact ⟨c, (GoMap.get_eq_some_iff m k1 c).mpr he, rfl⟩
  · rintro ⟨c, hc, rfl⟩
    exact List.mem_map.mpr ⟨(k, c), (GoMap.get_eq_some_iff m k c).mp hc, rfl⟩

/-- C9: with a visitor that always returns true, and no writer holding the
lock, `Range` returns, leaves the storage as it was, and calls the visitor
exactly once for each key that has an entry, with that entry's value, and for
nothing else: the visited pairs are a rearrangement of the map's (key, value)
pairs, no key is visited twice, and the number of calls is the number of
entries; this for every walk order. -/
theorem Range_visits_every_entry (s : Storage K V) (fn : σ → K → V → Bool × σ) (st : σ)
    (order : List (K × storageItemContainer V)) (hw : s.mu.writer = false)
    (ho : s.data.IterOrder order) (ht : ∀ st k v, (fn st k v).1 = true) :
    ∃ st1 calls, Range s fn st order = some (s, st1, calls) ∧
      (calls.map Prod.fst).Perm (s.data.entries.map visited) ∧
      ((calls.map Prod.fst).map Prod.fst).Nodup ∧
      (∀ k v, (k, v) ∈ calls.map Prod.fst ↔ ∃ c, s.data.get k = some c ∧ c.data = v) ∧
      calls.length = s.data.len := by
  have hcalls := rangeLoop_all_true fn st order ht
  have hperm : ((rangeLoop fn st order).2.map Prod.fst).Perm (s.data.entries.map visited) := by
    rw [hcalls]; exact List.Perm.map visited ho
  refine ⟨_, _, Range_no_writer s fn st order hw, hperm, ?_, ?_, ?_⟩
  · have hp := List.Perm.map Prod.fst hperm
    rw [visited_keys] at hp
    exact (List.Perm.nodup_iff hp).mpr s.data.nodup
  · intro k v
    rw [List.Perm.mem_iff hperm]
    exact mem_visited_iff s.data k v
  · have := List.Perm.length_eq hperm
    simpa [GoMap.len] using this

/-- C10: for every visitor, walk order and storage with no writer holding the
lock, `Range` returns and leaves the storage as it was; if the visitor returns
false on its `n`-th call, that call is the last one: the number of calls is
exactly `n`, at least 1, and every earlier call returned true.  The calls follow
the walk order from its start, no key is visited twice, every visited pair is
an entry of the map with its current value, and there are no more calls than
entries. -/
theorem Range_stops_at_false (s : Storage K V) (fn : σ → K → V → Bool × σ) (st : σ)
    (order : List (K × storageItemContainer V)) (hw : s.mu.writer = false)
    (ho : s.data.IterOrder order) :
    ∃ st1 calls, Range s fn st order = some (s, st1, calls) ∧
      (∀ n p, 1 ≤ n → calls.get? (n - 1) = some (p, false) →
        calls.length = n ∧ 1 ≤ calls.length ∧
          ∀ i, i + 1 < n → (calls.get? i).map Prod.snd = some true) ∧
      (calls.map Prod.fst) <+: (order.map visited) ∧
      ((calls.map Prod.fst).map Prod.fst).Nodup ∧
      (∀ k v, (k, v) ∈ calls.map Prod.fst → ∃ c, s.data.get k = some c ∧ c.data = v) ∧
      calls.length ≤ s.data.len := by
  have hpre := rangeLoop_calls_follow_order fn st order
  have hsub : ((rangeLoop fn st order).2.map Prod.fst).Sublist (order.map visited) :=
    List.IsPrefix.sublist hpre
  have hperm : (order.map visited).Perm (s.data.entries.map visited) := List.Perm.map visited ho
  refine ⟨_, _, Range_no_writer s fn st order hw, ?_, hpre, ?_, ?_, ?_⟩
  · intro n p hn hget
    have hlen := rangeLoop_stop fn st order (n - 1) p hget
    have hlen' : (rangeLoop fn st order).2.length = n := by omega
    refine ⟨hlen', by omega, ?_⟩
    intro i hi
    exact rangeLoop_before_stop fn st order i (by omega)
  · have hnd : ((order.map visited).map Prod.fst).Nodup := by
      rw [visited_keys]
      exact (List.Perm.nodup_iff (List.Perm.map Prod.fst ho)).mpr s.data.nodup
    exact (List.Sublist.map Prod.fst hsub).nodup hnd
  · intro k v hmem
    have h1 : (k, v) ∈ order.map visited := List.Sublist.subset hsub hmem
    exact (mem_visited_iff s.data k v).mp ((List.Perm.mem_iff hperm).mp h1)
  · have h1 := List.Sublist.length_le hsub
    have h2 := List.Perm.length_eq hperm
    simp only [List.length_map] at h1 h2
    simp only [GoMap.len]
    omega

end RangeContracts

/-! ## The theorems on the sample states -/

theorem ValidWalks_cons {K V : Type} [DecidableEq K] (s s1 : Storage K V)
    (tick : Time × List (K × storageItemContainer V))
    (rest : List (Time × List (K × storageItemContainer V)))
    (ho : s.data.IterOrder tick.2) (h1 : gcTick s tick.1 tick.2 = some s1)
    (hr : ValidWalks s1 rest) : ValidWalks s (tick :: rest) :=
  ⟨ho, fun s2 h2 => by rw [h1] at h2; cases h2; exact hr⟩

theorem sampleStorage_walks :
    ValidWalks sampleStorage [(16, [(2, ⟨20, 6⟩), (1, ⟨10, 5⟩)]), (24, [(2, ⟨20, 6⟩)])] :=
  ValidWalks_cons sampleStorage
    { sampleStorage with data := ⟨[(2, ⟨20, 6⟩)], by decide⟩ } _ _
    (List.Perm.swap _ _ _) rfl
    (ValidWalks_cons _ { sampleStorage with data := ⟨[(2, ⟨20, 6⟩)], by decide⟩ } _ _
      (List.Perm.refl _) rfl trivial)

theorem gcTestStorage_walks : ValidWalks gcTestStorage gcTestPasses :=
  ValidWalks_cons gcTestStorage gcTestStorage _ _ (List.Perm.refl _) rfl
    (ValidWalks_cons gcTestStorage { gcTestStorage with data := GoMap.empty } _ _
      (List.Perm.refl _) rfl
      (ValidWalks_cons _ { gcTestStorage with data := GoMap.empty } _ _ (List.Perm.refl _) rfl
        (ValidWalks_cons _ { gcTestStorage with data := GoMap.empty } _ _ (List.Perm.refl _) rfl
          (ValidWalks_cons _ { gcTestStorage with data := GoMap.empty } _ _ (List.Perm.refl _)
            rfl trivial))))

/-- The GC test storage is what the constructor and the four `Store` calls of
the test build, all at instant 0. -/
theorem gcTestStorage_built :
    (do
      let s0 := (NewStorage [WithGCInterval Millisecond, WithEntryTTL Millisecond]).1
      let s1 ← Store s0 1 1 0
      let s2 ← Store s1 2 1 0
      let s3 ← Store s2 3 1 0
      Store s3 4 1 0) = some gcTestStorage ∧
    (NewStorage [WithGCInterval Millisecond, WithEntryTTL Millisecond] :
      Storage Nat Nat × Bool).2 = true :=
  ⟨rfl, rfl⟩

/-- The GC test, run: after the passes of the sleep `Range` counts zero
entries. -/
theorem gcTest_counts_zero :
    (do
      let s5 ← gcLoop gcTestStorage gcTestPasses
      let out ← Range s5 countAll 0 []
      pure out.2.1) = some 0 :=
  rfl

/-- Witness of C6 on the sample storage: a pass at instant 20 with TTL 5 has
cutoff 15, so key 1 (written at 10) goes and key 2 (written at 20) stays. -/
theorem gcTick_filters_stale_witness :
    sampleStorage.mu = RWMutex.unlocked ∧
      sampleStorage.data.IterOrder [(2, ⟨20, 6⟩), (1, ⟨10, 5⟩)] ∧
      -(2 ^ 63) < sampleStorage.entryTTL ∧ sampleStorage.entryTTL < 2 ^ 63 ∧
      ∃ s1, gcTick sampleStorage 20 [(2, ⟨20, 6⟩), (1, ⟨10, 5⟩)] = some s1 ∧
        s1.data.entries = sampleStorage.data.entries.filter
          (fun e => decide (20 - sampleStorage.entryTTL ≤ e.2.lastUpdate)) ∧
        (∀ k c, sampleStorage.data.get k = some c →
          c.lastUpdate < 20 - sampleStorage.entryTTL → s1.data.get k = none) ∧
        (∀ k c, sampleStorage.data.get k = some c →
          20 - sampleStorage.entryTTL ≤ c.lastUpdate → s1.data.get k = some c) ∧
        (∀ k, sampleStorage.data.get k = none → s1.data.get k = none) ∧
        (∀ k c, s1.data.get k = some c → 20 - sampleStorage.entryTTL ≤ c.lastUpdate) :=
  ⟨rfl, List.Perm.swap _ _ _, by decide, by decide,
    gcTick_filters_stale sampleStorage 20 [(2, ⟨20, 6⟩), (1, ⟨10, 5⟩)] rfl
      (List.Perm.swap _ _ _) (by decide) (by decide)⟩

/-- Witness of C7 on the sample storage: key 2, written at 20 with TTL 5,
survives the passes at instants 16 and 24. -/
theorem gcLoop_keeps_fresh_entry_witness :
    sampleStorage.mu = RWMutex.unlocked ∧ sampleStorage.data.get 2 = some ⟨20, 6⟩ ∧
      ∃ s1, gcLoop sampleStorage
          [(16, [(2, ⟨20, 6⟩), (1, ⟨10, 5⟩)]), (24, [(2, ⟨20, 6⟩)])] = some s1 ∧
        s1.data.get 2 = some ⟨20, 6⟩ :=
  ⟨rfl, rfl, gcLoop_keeps_fresh_entry sampleStorage 2 ⟨20, 6⟩ _ rfl (by decide) (by decide) rfl
    sampleStorage_walks (by decide)⟩

/-- Witness of C8 on the storage of the GC test: after the five passes of the
sleep key 1 is gone, and a pass at 5 ms on the four entries written at 0 leaves
a map on which `Range` makes no call. -/
theorem gcLoop_removes_stale_entry_witness :
    gcTestStorage.mu = RWMutex.unlocked ∧ 0 < gcTestStorage.entryTTL ∧
      gcTestStorage.entryTTL < 2 ^ 63 ∧
      (∃ s1, gcLoop gcTestStorage gcTestPasses = some s1 ∧ s1.data.get 1 = none) ∧
      (∃ s1, gcTick gcTestStorage 5000000 gcTestStorage.data.entries = some s1 ∧
        s1.data.entries = [] ∧
        ∀ order1, s1.data.IterOrder order1 →
          Range s1 countAll 0 order1 = some (s1, 0, [])) :=
  ⟨rfl, by decide, by decide,
    (gcLoop_removes_stale_entry gcTestStorage rfl (by decide) (by decide)).1 1 ⟨0, 1⟩
      1000000 5000000 gcTestPasses rfl gcTestStorage_walks (by decide) (by decide) (by decide)
      (by decide),
    (gcLoop_removes_stale_entry gcTestStorage rfl (by decide) (by decide)).2 Nat countAll 0
      5000000 gcTestStorage.data.entries (List.Perm.refl _) (by decide)⟩

/-- Witness of C9 on the sample storage, walked from key 2 to key 1. -/
theorem Range_visits_every_entry_witness :
    sampleStorage.mu.writer = false ∧
      sampleStorage.data.IterOrder [(2, ⟨20, 6⟩), (1, ⟨10, 5⟩)] ∧
      (∀ st k v, (countAll st k v).1 = true) ∧
      ∃ st1 calls,
        Range sampleStorage countAll 0 [(2, ⟨20, 6⟩), (1, ⟨10, 5⟩)]
          = some (sampleStorage, st1, calls) ∧
        (calls.map Prod.fst).Perm (sampleStorage.data.entries.map visited) ∧
        ((calls.map Prod.fst).map Prod.fst).Nodup ∧
        (∀ k v, (k, v) ∈ calls.map Prod.fst ↔
          ∃ c, sampleStorage.data.get k = some c ∧ c.data = v) ∧
        calls.length = sampleStorage.data.len :=
  ⟨rfl, List.Perm.swap _ _ _, fun _ _ _ => rfl,
    Range_visits_every_entry sampleStorage countAll 0 [(2, ⟨20, 6⟩), (1, ⟨10, 5⟩)] rfl
      (List.Perm.swap _ _ _) (fun _ _ _ => rfl)⟩

/-- Witness of C10 on the GC test storage, walked from key 4 down to key 1 with
a visitor that stops at its second call: two calls are made. -/
theorem Range_stops_at_false_witness :
    gcTestStorage.mu.writer = false ∧
      gcTestStorage.data.IterOrder [(4, ⟨0, 1⟩), (3, ⟨0, 1⟩), (2, ⟨0, 1⟩), (1, ⟨0, 1⟩)] ∧
      Range gcTestStorage stopAtSecond 0 [(4, ⟨0, 1⟩), (3, ⟨0, 1⟩), (2, ⟨0, 1⟩), (1, ⟨0, 1⟩)]
        = some (gcTestStorage, 2, [((4, 1), true), ((3, 1), false)]) ∧
      ∃ st1 calls,
        Range gcTestStorage stopAtSecond 0
            [(4, ⟨0, 1⟩), (3, ⟨0, 1⟩), (2, ⟨0, 1⟩), (1, ⟨0, 1⟩)]
          = some (gcTestStorage, st1, calls) ∧
        (∀ n p, 1 ≤ n → calls.get? (n - 1) = some (p, false) →
          calls.length = n ∧ 1 ≤ calls.length ∧
            ∀ i, i + 1 < n → (calls.get? i).map Prod.snd = some true) ∧
        (calls.map Prod.fst) <+:
          (([(4, ⟨0, 1⟩), (3, ⟨0, 1⟩), (2, ⟨0, 1⟩), (1, ⟨0, 1⟩)] :
            List (Nat × storageItemContainer Nat)).map visited) ∧
        ((calls.map Prod.fst).map Prod.fst).Nodup ∧
        (∀ k v, (k, v) ∈ calls.map Prod.fst →
          ∃ c, gcTestStorage.data.get k = some c ∧ c.data = v) ∧
        calls.length ≤ gcTestStorage.data.len :=
  ⟨rfl, by decide, rfl,
    Range_stops_at_false gcTestStorage stopAtSecond 0
      [(4, ⟨0, 1⟩), (3, ⟨0, 1⟩), (2, ⟨0, 1⟩), (1, ⟨0, 1⟩)] rfl (by decide)⟩

/-! ## More facts about the map and the lock -/

section MoreMapFacts

variable {K C : Type} [DecidableEq K]

theorem slotGet_slotSet_ne (k k1 : K) (c : C) (l : List (K × C)) (h : k1 ≠ k) :
    slotGet k1 (slotSet k c l) = slotGet k1 l := by
  induction l with
  | nil => simp [slotSet, slotGet, h.symm]
  | cons e rest ih =>
    obtain ⟨k2, c2⟩ := e
    by_cases h2 : k2 = k
    · subst h2
      simp [slotSet, slotGet, h.symm]
    · by_cases h3 : k2 = k1
      · subst h3
        simp [slotSet, slotGet, h2]
      · simp [slotSet, slotGet, h2, h3, ih]

theorem slotGet_slotDelete_ne (k k1 : K) (l : List (K × C)) (h : k1 ≠ k) :
    slotGet k1 (slotDelete k l) = slotGet k1 l := by
  induction l with
  | nil => simp [slotDelete, slotGet]
  | cons e rest ih =>
    obtain ⟨k2, c2⟩ := e
    by_cases h2 : k2 = k
    · have e1 : slotDelete k ((k2, c2) :: rest) = slotDelete k rest := by
        simp [slotDelete, h2]
      have h3 : ¬ k2 = k1 := fun e => h (e.symm.trans h2)
      rw [e1, ih]; simp [slotGet, h3]
    · have e1 : slotDelete k ((k2, c2) :: rest) = (k2, c2) :: slotDelete k rest := by
        simp [slotDelete, h2]
      rw [e1]
      by_cases h3 : k2 = k1
      · simp [slotGet, h3]
      · simp [slotGet, h3, ih]

theorem slotDelete_absent (k : K) (l : List (K × C)) (h : slotGet k l = none) :
    slotDelete k l = l := by
  induction l with
  | nil => rfl
  | cons e rest ih =>
    obtain ⟨k2, c2⟩ := e
    by_cases h2 : k2 = k
    · simp [slotGet, h2] at h
    · simp only [slotGet, h2, if_false] at h
      have e1 : slotDelete k ((k2, c2) :: rest) = (k2, c2) :: slotDelete k rest := by
        simp [slotDelete, h2]
      rw [e1, ih h]

theorem GoMap.get_set_ne (m : GoMap K C) (k k1 : K) (c : C) (h : k1 ≠ k) :
    (m.set k c).get k1 = m.get k1 :=
  slotGet_slotSet_ne k k1 c m.entries h

theorem GoMap.get_delete_ne (m : GoMap K C) (k k1 : K) (h : k1 ≠ k) :
    (m.delete k).get k1 = m.get k1 :=
  slotGet_slotDelete_ne k k1 m.entries h

theorem GoMap.delete_absent (m : GoMap K C) (k : K) (h : m.get k = none) :
    m.delete k = m :=
  GoMap.ext_entries (slotDelete_absent k m.entries h)

end MoreMapFacts

section ReadFacts

variable {K V σ : Type} [DecidableEq K]

theorem Load_no_writer_hit [Inhabited V] (s : Storage K V) (k : K) (c : storageItemContainer V)
    (hw : s.mu.writer = false) (hc : s.data.get k = some c) :
    Load s k = some (s, c.data, true) := by
  obtain ⟨⟨r, w⟩, data, gi, ttl⟩ := s
  simp only at hw hc
  subst hw
  simp [Load, RWMutex.RLock, RWMutex.RUnlock, hc]

theorem Load_no_writer_miss [Inhabited V] (s : Storage K V) (k : K)
    (hw : s.mu.writer = false) (hc : s.data.get k = none) :
    Load s k = some ({ s with mu := ⟨s.mu.readers + 1, false⟩ }, default, false) := by
  obtain ⟨⟨r, w⟩, data, gi, ttl⟩ := s
  simp only at hw hc
  subst hw
  simp [Load, RWMutex.RLock, hc]

theorem Load_data [Inhabited V] (s s1 : Storage K V) (k : K) (v : V) (found : Bool)
    (h : Load s k = some (s1, v, found)) :
    s1.data = s.data ∧ s1.gcInterval = s.gcInterval ∧ s1.entryTTL = s.entryTTL ∧
      s1.mu.writer = false := by
  have hw : s.mu.writer = false := by
    by_contra hn
    simp [Load, RWMutex.RLock, hn] at h
  cases hc : s.data.get k with
  | none =>
    rw [Load_no_writer_miss s k hw hc] at h
    cases h
    exact ⟨rfl, rfl, rfl, rfl⟩
  | some c =>
    rw [Load_no_writer_hit s k c hw hc] at h
    cases h
    exact ⟨rfl, rfl, rfl, hw⟩

end ReadFacts

/-! ## Delete, reads and lookups -/

section DeleteAndReads

variable {K V : Type} [DecidableEq K]

/-- C11: with the lock free `Delete(k)` returns; on a key with no entry it
returns the storage it was given, a second `Delete(k)` changes nothing more, and
every other key has after `Delete(k)` the entry it had before, if any, with the
same value and `lastUpdate`. -/
theorem Delete_idempotent_local (s : Storage K V) (k : K) (h : s.mu = RWMutex.unlocked) :
    ∃ s1, Delete s k = some s1 ∧
      (s.data.get k = none → s1 = s) ∧
      Delete s1 k = some s1 ∧
      ∀ k1, k1 ≠ k → s1.data.get k1 = s.data.get k1 := by
  refine ⟨_, Delete_unlocked s k h, ?_, ?_, ?_⟩
  · intro hc
    rw [GoMap.delete_absent s.data k hc]
  · have h1 : ({ s with data := s.data.delete k } : Storage K V).mu = RWMutex.unlocked := h
    rw [Delete_unlocked _ k h1]
    simp only
    rw [GoMap.delete_absent (s.data.delete k) k (GoMap.get_delete_same s.data k)]
  · intro k1 hk
    exact GoMap.get_delete_ne s.data k k1 hk

/-- C12: whenever no writer holds the lock, `Load(k)` returns a storage with the
same map, slot for slot, value and `lastUpdate` included, and the same
configuration; `Range` with any visitor and any walk order returns the storage
it was given. -/
theorem reads_leave_the_map (s : Storage K V) [Inhabited V] (hw : s.mu.writer = false) :
    (∀ k : K, ∃ s1 v found, Load s k = some (s1, v, found) ∧ s1.data = s.data ∧
        s1.gcInterval = s.gcInterval ∧ s1.entryTTL = s.entryTTL) ∧
      (∀ (σ : Type) (fn : σ → K → V → Bool × σ) (st : σ)
          (order : List (K × storageItemContainer V)),
        ∃ st1 calls, Range s fn st order = some (s, st1, calls)) := by
  constructor
  · intro k
    cases hc : s.data.get k with
    | none => exact ⟨_, _, _, Load_no_writer_miss s k hw hc, rfl, rfl, rfl⟩
    | some c => exact ⟨_, _, _, Load_no_writer_hit s k c hw hc, rfl, rfl, rfl⟩
  · intro σ fn st order
    exact ⟨_, _, Range_no_writer s fn st order hw⟩

end DeleteAndReads

/-! ## The constructor -/

section ConstructorFacts

variable {K V : Type}

theorem foldl_options_frame (opts : List OptionSpec) (st : Storage K V) :
    ((opts.map OptionSpec.toFn).foldl (fun st opt => opt st) st).mu = st.mu ∧
      ((opts.map OptionSpec.toFn).foldl (fun st opt => opt st) st).data = st.data := by
  induction opts generalizing st with
  | nil => exact ⟨rfl, rfl⟩
  | cons o rest ih =>
    cases o with
    | gcInterval d => exact ih (WithGCInterval d st)
    | entryTTL d => exact ih (WithEntryTTL d st)

theorem foldl_options_gcInterval (opts : List OptionSpec) (st : Storage K V) :
    ((opts.map OptionSpec.toFn).foldl (fun st opt => opt st) st).gcInterval =
      (lastGCInterval opts).getD st.gcInterval := by
  induction opts using List.reverseRecOn with
  | nil => rfl
  | append_singleton l o ih =>
    rw [List.map_append, List.foldl_append]
    cases o with
    | gcInterval d =>
      simp [lastGCInterval, List.filterMap_append, OptionSpec.toFn, WithGCInterval]
    | entryTTL d =>
      simp only [lastGCInterval, List.filterMap_append] at ih ⊢
      simpa [OptionSpec.toFn, WithEntryTTL] using ih

theorem foldl_options_entryTTL (opts : List OptionSpec) (st : Storage K V) :
    ((opts.map OptionSpec.toFn).foldl (fun st opt => opt st) st).entryTTL =
      (lastEntryTTL opts).getD st.entryTTL := by
  induction opts using List.reverseRecOn with
  | nil => rfl
  | append_singleton l o ih =>
    rw [List.map_append, List.foldl_append]
    cases o with
    | gcInterval d =>
      simp only [lastEntryTTL, List.filterMap_append] at ih ⊢
      simpa [OptionSpec.toFn, WithGCInterval] using ih
    | entryTTL d =>
      simp [lastEntryTTL, List.filterMap_append, OptionSpec.toFn, WithEntryTTL]

theorem NewStorage_fresh (opts : List OptionSpec) :
    (NewStorage (opts.map OptionSpec.toFn) : Storage K V × Bool).1.mu = RWMutex.unlocked ∧
      (NewStorage (opts.map OptionSpec.toFn) : Storage K V × Bool).1.data = GoMap.empty :=
  foldl_options_frame opts _

end ConstructorFacts

section Constructor

variable {K V : Type} [DecidableEq K]

/-- C13: whenever no writer holds the lock, `Load` of a key with no entry
returns the nil value and `found = false`; whenever `Load` returns
`found = true`, the value it returns is the value of the entry the map holds
for the key; and on a storage fresh from the constructor, whatever the
options, `Load` of every key returns the nil value and `found = false`. -/
theorem Load_absent_is_nil [Inhabited V] (s : Storage K V) (k : K)
    (hw : s.mu.writer = false) :
    (s.data.get k = none → ∃ s1, Load s k = some (s1, default, false)) ∧
      (∀ s1 v, Load s k = some (s1, v, true) → ∃ c, s.data.get k = some c ∧ c.data = v) ∧
      (∀ opts : List OptionSpec, ∃ s1 : Storage K V,
        Load (NewStorage (opts.map OptionSpec.toFn)).1 k = some (s1, default, false)) := by
  refine ⟨?_, ?_, ?_⟩
  · intro hc
    exact ⟨_, Load_no_writer_miss s k hw hc⟩
  · intro s1 v hl
    cases hc : s.data.get k with
    | none =>
      rw [Load_no_writer_miss s k hw hc] at hl
      cases hl
    | some c =>
      rw [Load_no_writer_hit s k c hw hc] at hl
      cases hl
      exact ⟨c, rfl, rfl⟩
  · intro opts
    obtain ⟨hmu, hdata⟩ := NewStorage_fresh (K := K) (V := V) opts
    refine ⟨_, Load_no_writer_miss _ k (by rw [hmu]; rfl) ?_⟩
    rw [hdata]
    rfl

end Constructor

section Configuration

variable {K V : Type}

/-- C15: for every list of the two options, `NewStorage` returns a storage
whose `gcInterval` is the argument of the last `WithGCInterval` of the list, or
one hour if there is none, whose `entryTTL` is the argument of the last
`WithEntryTTL`, or 24 hours if there is none, whose map is empty and whose lock
is free; `WithGCInterval` changes `gcInterval` only and `WithEntryTTL` changes
`entryTTL` only. -/
theorem NewStorage_configuration (opts : List OptionSpec) :
    (NewStorage (opts.map OptionSpec.toFn) : Storage K V × Bool).1.gcInterval =
        (lastGCInterval opts).getD 3600000000000 ∧
      (NewStorage (opts.map OptionSpec.toFn) : Storage K V × Bool).1.entryTTL =
        (lastEntryTTL opts).getD (24 * 3600000000000) ∧
      (NewStorage (opts.map OptionSpec.toFn) : Storage K V × Bool).1.data = GoMap.empty ∧
      (NewStorage (opts.map OptionSpec.toFn) : Storage K V × Bool).1.mu = RWMutex.unlocked ∧
      (∀ (d : Duration) (s : Storage K V),
        WithGCInterval d s = { s with gcInterval := d } ∧
        WithEntryTTL d s = { s with entryTTL := d }) := by
  refine ⟨?_, ?_, (NewStorage_fresh opts).2, (NewStorage_fresh opts).1, fun d s => ⟨rfl, rfl⟩⟩
  · exact foldl_options_gcInterval opts _
  · have := foldl_options_entryTTL (K := K) (V := V) opts
      { mu := RWMutex.unlocked, data := GoMap.empty, gcInterval := defaultGCInterval,
        entryTTL := defaultEntryTTL }
    simpa [NewStorage, defaultEntryTTL, Hour, mul_comm] using this

end Configuration

/-! ## Runs of calls -/

section CallFacts

variable {K V σ : Type} [DecidableEq K]

theorem GoMap.get_set_present {C : Type} (m : GoMap K C) (k k1 : K) (c c1 : C)
    (h : m.get k1 = some c1) : ∃ c2, (m.set k c).get k1 = some c2 := by
  by_cases hk : k1 = k
  · subst hk; exact ⟨c, GoMap.get_set_same m k1 c⟩
  · exact ⟨c1, by rw [GoMap.get_set_ne m k k1 c hk]; exact h⟩

theorem Store_some (s s1 : Storage K V) (k : K) (v : V) (now : Time)
    (h : Store s k v now = some s1) :
    s.mu = RWMutex.unlocked ∧ s1 = { s with data := s.data.set k ⟨now, v⟩ } := by
  have hu := (Store_returns_iff s k v now).mp (by rw [h]; rfl)
  rw [Store_unlocked s k v now hu] at h
  exact ⟨hu, (Option.some.inj h).symm⟩

theorem StoreOrUpdate_unlocked (s : Storage K V) (k : K) (v : V) (fn : Option (V → V → V))
    (now : Time) (h : s.mu = RWMutex.unlocked) :
    ∃ s1, StoreOrUpdate s k v fn now = some s1 ∧ s1.mu = s.mu ∧
      s1.gcInterval = s.gcInterval ∧ s1.entryTTL = s.entryTTL ∧
      (s1.data = s.data ∨ ∃ c, s1.data = s.data.set k c) := by
  cases hc : s.data.get k with
  | none =>
    exact ⟨_, StoreOrUpdate_absent s k v fn now h hc, rfl, rfl, rfl, Or.inr ⟨_, rfl⟩⟩
  | some c =>
    cases fn with
    | none => exact ⟨_, StoreOrUpdate_present_nil s k v now c h hc, rfl, rfl, rfl, Or.inl rfl⟩
    | some f =>
      exact ⟨_, StoreOrUpdate_present s k v f now c h hc, rfl, rfl, rfl, Or.inr ⟨_, rfl⟩⟩

theorem StoreOrUpdate_some (s s1 : Storage K V) (k : K) (v : V) (fn : Option (V → V → V))
    (now : Time) (h : StoreOrUpdate s k v fn now = some s1) :
    s.mu = RWMutex.unlocked ∧ s1.mu = s.mu ∧
      (s1.data = s.data ∨ ∃ c, s1.data = s.data.set k c) := by
  have hu : s.mu = RWMutex.unlocked := by
    obtain ⟨⟨r, w⟩, data, gi, ttl⟩ := s
    by_cases hl : r = 0 ∧ w = false
    · obtain ⟨rfl, rfl⟩ := hl; rfl
    · simp [StoreOrUpdate, RWMutex.Lock, hl] at h
  obtain ⟨s2, h2, hmu, _, _, hd⟩ := StoreOrUpdate_unlocked s k v fn now hu
  rw [h2] at h
  cases h
  exact ⟨hu, hmu, hd⟩

theorem Range_some (s s1 : Storage K V) (fn : σ → K → V → Bool × σ) (st st1 : σ)
    (order : List (K × storageItemContainer V)) (calls : List ((K × V) × Bool))
    (h : Range s fn st order = some (s1, st1, calls)) : s1 = s := by
  have hw : s.mu.writer = false := by
    by_contra hn
    simp [Range, RWMutex.RLock, hn] at h
  rw [Range_no_writer s fn st order hw] at h
  cases h
  rfl

/-- A call other than `Delete` and the sweep keeps every key that has an
entry. -/
theorem Call.run_keeps_keys [Inhabited V] (s s1 : Storage K V) (c : Call K V σ)
    (hd : c.isDelete = false) (hs : c.isSweep = false) (h : c.run s = some s1)
    (k : K) (c0 : storageItemContainer V) (hk : s.data.get k = some c0) :
    ∃ c1, s1.data.get k = some c1 := by
  cases c with
  | store k1 v now =>
    obtain ⟨_, rfl⟩ := Store_some s s1 k1 v now h
    exact GoMap.get_set_present s.data k1 k _ c0 hk
  | storeOrUpdate k1 v fn now =>
    obtain ⟨_, _, hdata⟩ := StoreOrUpdate_some s s1 k1 v fn now h
    rcases hdata with e | ⟨c2, e⟩
    · exact ⟨c0, by rw [e]; exact hk⟩
    · rw [e]; exact GoMap.get_set_present s.data k1 k c2 c0 hk
  | load k1 =>
    simp only [Call.run, Option.map_eq_some'] at h
    obtain ⟨⟨s2, v, found⟩, hl, rfl⟩ := h
    exact ⟨c0, by rw [(Load_data s s2 k1 v found hl).1]; exact hk⟩
  | delete k1 => simp [Call.isDelete] at hd
  | range fn st order =>
    simp only [Call.run, Option.map_eq_some'] at h
    obtain ⟨⟨s2, st1, calls⟩, hr, rfl⟩ := h
    exact ⟨c0, by rw [Range_some s s2 fn st st1 order calls hr]; exact hk⟩
  | sweep now order => simp [Call.isSweep] at hs

theorem runCalls_keeps_keys [Inhabited V] (s s1 : Storage K V) (calls : List (Call K V σ))
    (hd : ∀ c ∈ calls, c.isDelete = false ∧ c.isSweep = false)
    (h : runCalls s calls = some s1)
    (k : K) (c0 : storageItemContainer V) (hk : s.data.get k = some c0) :
    ∃ c1, s1.data.get k = some c1 := by
  induction calls generalizing s c0 with
  | nil =>
    simp only [runCalls, Option.some.injEq] at h
    subst h
    exact ⟨c0, hk⟩
  | cons c rest ih =>
    simp only [runCalls, Option.bind_eq_bind, Option.bind_eq_some] at h
    obtain ⟨s2, h2, h3⟩ := h
    have hc := hd c (List.mem_cons_self _ _)
    obtain ⟨c1, hc1⟩ := Call.run_keeps_keys s s2 c hc.1 hc.2 h2 k c0 hk
    exact ih s2 (fun c hm => hd c (List.mem_cons_of_mem _ hm)) h3 c1 hc1

/-- A call other than `Load` returns when the lock is free and leaves it
free. -/
theorem Call.run_returns [Inhabited V] (s : Storage K V) (c : Call K V σ)
    (h : s.mu = RWMutex.unlocked) (hl : c.isLoad = false) :
    ∃ s1, c.run s = some s1 ∧ s1.mu = RWMutex.unlocked := by
  cases c with
  | store k1 v now => exact ⟨_, Store_unlocked s k1 v now h, h⟩
  | storeOrUpdate k1 v fn now =>
    obtain ⟨s1, h1, hmu, _⟩ := StoreOrUpdate_unlocked s k1 v fn now h
    exact ⟨s1, h1, hmu.trans h⟩
  | load k1 => simp [Call.isLoad] at hl
  | delete k1 => exact ⟨_, Delete_unlocked s k1 h, h⟩
  | range fn st order =>
    refine ⟨s, ?_, h⟩
    simp only [Call.run]
    rw [Range_no_writer s fn st order (by rw [h]; rfl)]
    rfl
  | sweep now order => exact ⟨_, gcTick_unlocked s now order h, h⟩

theorem runCalls_returns [Inhabited V] (s : Storage K V) (calls : List (Call K V σ))
    (h : s.mu = RWMutex.unlocked) (hl : ∀ c ∈ calls, c.isLoad = false) :
    ∃ s1, runCalls s calls = some s1 ∧ s1.mu = RWMutex.unlocked := by
  induction calls generalizing s with
  | nil => exact ⟨s, rfl, h⟩
  | cons c rest ih =>
    obtain ⟨s2, h2, hmu2⟩ := Call.run_returns s c h (hl c (List.mem_cons_self _ _))
    obtain ⟨s3, h3, hmu3⟩ := ih s2 hmu2 (fun c hm => hl c (List.mem_cons_of_mem _ hm))
    refine ⟨s3, ?_, hmu3⟩
    simp only [runCalls, h2, Option.bind_eq_bind, Option.some_bind]
    exact h3

theorem runCalls_append [Inhabited V] (s : Storage K V) (pre post : List (Call K V σ)) :
    runCalls s (pre ++ post) = (runCalls s pre).bind fun s1 => runCalls s1 post := by
  induction pre generalizing s with
  | nil => rfl
  | cons c rest ih =>
    simp only [List.cons_append, runCalls, Option.bind_eq_bind]
    cases c.run s with
    | none => rfl
    | some s2 => simpa using ih s2

end CallFacts

/-! ## The sweeper is started or entries live forever -/

section SweeperStartFacts

variable {K V : Type}

theorem NewStorage_applies_options (options : List (OptionFn K V)) :
    (NewStorage options).1 = options.foldl (fun st opt => opt st)
      { mu := RWMutex.unlocked, data := GoMap.empty, gcInterval := 3600000000000,
        entryTTL := 24 * 3600000000000 } := by
  have h : defaultEntryTTL = 24 * 3600000000000 := by
    simp [defaultEntryTTL, Hour, mul_comm]
  simp only [NewStorage, h]
  rfl

theorem NewStorage_flag (options : List (OptionFn K V)) :
    (NewStorage options).2 = true ↔
      0 < (NewStorage options).1.gcInterval ∧ 0 < (NewStorage options).1.entryTTL := by
  simp [NewStorage]

end SweeperStartFacts

section SweeperStart

variable {K V : Type} [DecidableEq K]

/-- C14: the storage that `NewStorage` returns is the default one (one hour,
24 hours, empty map) with all the options applied in the order of the list, and
`NewStorage` executes `go st.gcLoop()` exactly when that storage has
`gcInterval > 0` and `entryTTL > 0`; for a list of `WithGCInterval` and
`WithEntryTTL` options: exactly when the last interval given, or one hour, and
the last TTL given, or 24 hours, are both positive.  When one of the two is zero
or negative it is not executed, so no run has a sweep pass, and in every run of
calls without `Delete` a key that has an entry at some point has one at every
later point.  Such runs return whenever the lock starts free and no `Load` is
among the calls. -/
theorem NewStorage_starts_sweeper_iff [Inhabited V] (options : List (OptionFn K V)) :
    (NewStorage options).1 = options.foldl (fun st opt => opt st)
        { mu := RWMutex.unlocked, data := GoMap.empty, gcInterval := 3600000000000,
          entryTTL := 24 * 3600000000000 } ∧
      ((NewStorage options).2 = true ↔
        0 < (options.foldl (fun st opt => opt st)
            ({ mu := RWMutex.unlocked, data := GoMap.empty, gcInterval := 3600000000000,
               entryTTL := 24 * 3600000000000 } : Storage K V)).gcInterval ∧
        0 < (options.foldl (fun st opt => opt st)
            ({ mu := RWMutex.unlocked, data := GoMap.empty, gcInterval := 3600000000000,
               entryTTL := 24 * 3600000000000 } : Storage K V)).entryTTL) ∧
      (∀ opts : List OptionSpec,
        (NewStorage (opts.map OptionSpec.toFn) : Storage K V × Bool).2 = true ↔
          0 < (lastGCInterval opts).getD 3600000000000 ∧
          0 < (lastEntryTTL opts).getD (24 * 3600000000000)) ∧
      ((NewStorage options).2 = true ↔
        0 < (NewStorage options).1.gcInterval ∧ 0 < (NewStorage options).1.entryTTL) ∧
      ((NewStorage options).1.gcInterval ≤ 0 ∨ (NewStorage options).1.entryTTL ≤ 0 →
        (NewStorage options).2 = false ∧
        ∀ (σ : Type) (pre post : List (Call K V σ)) (s1 s2 : Storage K V),
          (∀ c ∈ pre ++ post,
            (c.isSweep = true → (NewStorage options).2 = true) ∧ c.isDelete = false) →
          runCalls (NewStorage options).1 pre = some s1 → runCalls s1 post = some s2 →
          ∀ k c0, s1.data.get k = some c0 → ∃ c1, s2.data.get k = some c1) ∧
      ((NewStorage options).1.mu = RWMutex.unlocked →
        ∀ (σ : Type) (calls : List (Call K V σ)), (∀ c ∈ calls, c.isLoad = false) →
          ∃ s1, runCalls (NewStorage options).1 calls = some s1) := by
  have hiff := NewStorage_flag options
  have hfold := NewStorage_applies_options options
  refine ⟨hfold, ?_, ?_, hiff, ?_, ?_⟩
  · rw [← hfold]
    exact hiff
  · intro opts
    have h1 := NewStorage_flag (K := K) (V := V) (opts.map OptionSpec.toFn)
    have h2 := NewStorage_applies_options (K := K) (V := V) (opts.map OptionSpec.toFn)
    rw [h2, foldl_options_gcInterval, foldl_options_entryTTL] at h1
    exact h1
  · intro hle
    have hoff : (NewStorage options).2 = false := by
      cases hb : (NewStorage options).2 with
      | false => rfl
      | true =>
        have hpos := hiff.mp hb
        have h1 : (0 : Int) < (NewStorage options).1.gcInterval := hpos.1
        have h2 : (0 : Int) < (NewStorage options).1.entryTTL := hpos.2
        rcases hle with h | h
        · have h3 : (NewStorage options).1.gcInterval ≤ (0 : Int) := h
          exact absurd h1 (not_lt.mpr h3)
        · have h3 : (NewStorage options).1.entryTTL ≤ (0 : Int) := h
          exact absurd h2 (not_lt.mpr h3)
    refine ⟨hoff, ?_⟩
    intro σ pre post s1 s2 hall _ hpost k c0 hk
    apply runCalls_keeps_keys s1 s2 post _ hpost k c0 hk
    intro c hc
    have := hall c (List.mem_append_right pre hc)
    refine ⟨this.2, ?_⟩
    cases hsw : c.isSweep with
    | false => rfl
    | true =>
      have := this.1 hsw
      rw [hoff] at this
      cases this
  · intro hmu σ calls hl
    obtain ⟨s1, h1, _⟩ := runCalls_returns _ calls hmu hl
    exact ⟨s1, h1⟩

end SweeperStart

/-! ## Stores to distinct keys -/

section DistinctStores

variable {K V : Type} [DecidableEq K]

theorem storeAll_get (s : Storage K V) (writes : List (K × V × Time))
    (h : s.mu = RWMutex.unlocked) (hd : (writes.map fun w => w.1).Nodup) :
    ∃ s1, storeAll s writes = some s1 ∧ s1.mu = RWMutex.unlocked ∧
      (∀ w ∈ writes, s1.data.get w.1 = some ⟨w.2.2, w.2.1⟩) ∧
      (∀ k, k ∉ writes.map (fun w => w.1) → s1.data.get k = s.data.get k) := by
  induction writes generalizing s with
  | nil => exact ⟨s, rfl, h, ⟨fun w hw => absurd hw (List.not_mem_nil w), fun k _ => rfl⟩⟩
  | cons w rest ih =>
    have hd' : w.1 ∉ rest.map (fun w => w.1) ∧ (rest.map fun w => w.1).Nodup :=
      List.nodup_cons.mp (by rw [List.map_cons] at hd; exact hd)
    have h1 := Store_unlocked s w.1 w.2.1 w.2.2 h
    obtain ⟨s2, h2, hmu2, hin, hout⟩ :=
      ih ({ s with data := s.data.set w.1 ⟨w.2.2, w.2.1⟩ }) h hd'.2
    refine ⟨s2, ?_, hmu2, ?_, ?_⟩
    · simp only [storeAll, h1, Option.bind_eq_bind, Option.some_bind]
      exact h2
    · intro w1 hw1
      rcases List.mem_cons.mp hw1 with e | hm
      · subst e
        rw [hout w1.1 hd'.1]
        exact GoMap.get_set_same s.data w1.1 _
      · exact hin w1 hm
    · intro k hk
      have hk1 : k ≠ w.1 := fun e => hk (by rw [e]; exact List.mem_cons_self _ _)
      have hk2 : k ∉ rest.map (fun w => w.1) := fun hm =>
        hk (by rw [List.map_cons]; exact List.mem_cons_of_mem _ hm)
      rw [hout k hk2]
      exact GoMap.get_set_ne s.data w.1 k _ hk1

/-- C16: from every storage whose lock is free, for every list of writes
(key, value, clock reading) with pairwise distinct keys and every order in
which the `Store` calls are run one after the other, all of them return, and
afterwards `Load(k)` returns `(v, true)` for every write `(k, v)` of the list
while every key outside the list has the entry it had before, or none. -/
theorem Stores_to_distinct_keys [Inhabited V] (s : Storage K V)
    (writes order : List (K × V × Time))
    (h : s.mu = RWMutex.unlocked) (hd : (writes.map fun w => w.1).Nodup)
    (hp : order.Perm writes) :
    ∃ s1, storeAll s order = some s1 ∧
      (∀ w ∈ writes, Load s1 w.1 = some (s1, w.2.1, true)) ∧
      (∀ k, k ∉ writes.map (fun w => w.1) → s1.data.get k = s.data.get k) := by
  have hdo : (order.map fun w => w.1).Nodup :=
    (List.Perm.nodup_iff (List.Perm.map _ hp)).mpr hd
  obtain ⟨s1, h1, hmu, hin, hout⟩ := storeAll_get s order h hdo
  refine ⟨s1, h1, ?_, ?_⟩
  · intro w hw
    have hget := hin w ((List.Perm.mem_iff hp).mpr hw)
    exact Load_hit s1 w.1 _ hmu hget
  · intro k hk
    apply hout k
    intro hm
    exact hk ((List.Perm.mem_iff (List.Perm.map _ hp)).mp hm)

end DistinctStores

/-! ## One entry per key -/

section OneEntryPerKey

variable {K V σ : Type} [DecidableEq K]

theorem mem_keys_iff {C : Type} (m : GoMap K C) (k : K) :
    k ∈ m.entries.map Prod.fst ↔ ∃ c, m.get k = some c := by
  constructor
  · intro h
    obtain ⟨e, he, hk⟩ := List.mem_map.mp h
    obtain ⟨k1, c⟩ := e
    simp only at hk
    subst hk
    exact ⟨c, (GoMap.get_eq_some_iff m k1 c).mpr he⟩
  · rintro ⟨c, hc⟩
    exact List.mem_map.mpr ⟨(k, c), (GoMap.get_eq_some_iff m k c).mp hc, rfl⟩

theorem GoMap.len_set_present {C : Type} (m : GoMap K C) (k : K) (c c0 : C)
    (h : m.get k = some c0) : (m.set k c).len = m.len := by
  have hk : k ∈ m.entries.map Prod.fst := (mem_keys_iff m k).mpr ⟨c0, h⟩
  have := congrArg List.length (slotSet_keys k c m.entries)
  rw [if_pos hk] at this
  simpa [GoMap.len, GoMap.set] using this

theorem GoMap.len_set_absent {C : Type} (m : GoMap K C) (k : K) (c : C)
    (h : m.get k = none) : (m.set k c).len = m.len + 1 := by
  have hk : k ∉ m.entries.map Prod.fst := by
    intro hm
    obtain ⟨c0, hc0⟩ := (mem_keys_iff m k).mp hm
    rw [h] at hc0
    cases hc0
  have := congrArg List.length (slotSet_keys k c m.entries)
  rw [if_neg hk] at this
  simpa [GoMap.len, GoMap.set] using this

theorem distinctKeys_eq_len (s : Storage K V) : distinctKeys s = s.data.len := by
  unfold distinctKeys GoMap.len
  rw [List.toFinset_card_of_nodup s.data.nodup, List.length_map]

theorem Range_count (s : Storage K V) (fn : σ → K → V → Bool × σ) (st : σ)
    (order : List (K × storageItemContainer V)) (hw : s.mu.writer = false)
    (ho : s.data.IterOrder order) (ht : ∀ st k v, (fn st k v).1 = true) :
    ∃ st1 calls, Range s fn st order = some (s, st1, calls) ∧
      calls.length = distinctKeys s := by
  refine ⟨_, _, Range_no_writer s fn st order hw, ?_⟩
  have h1 := congrArg List.length (rangeLoop_all_true fn st order ht)
  simp only [List.length_map] at h1
  rw [h1, distinctKeys_eq_len, GoMap.len]
  exact List.Perm.length_eq ho

theorem storeAll_len (s : Storage K V) (writes : List (K × V × Time))
    (h : s.mu = RWMutex.unlocked) (hd : (writes.map fun w => w.1).Nodup)
    (hnew : ∀ w ∈ writes, s.data.get w.1 = none) :
    ∃ s1, storeAll s writes = some s1 ∧ s1.mu = RWMutex.unlocked ∧
      s1.data.len = s.data.len + writes.length := by
  induction writes generalizing s with
  | nil => exact ⟨s, rfl, h, rfl⟩
  | cons w rest ih =>
    have hd' : w.1 ∉ rest.map (fun w => w.1) ∧ (rest.map fun w => w.1).Nodup :=
      List.nodup_cons.mp (by rw [List.map_cons] at hd; exact hd)
    have h1 := Store_unlocked s w.1 w.2.1 w.2.2 h
    have hnew1 : ∀ w1 ∈ rest,
        ({ s with data := s.data.set w.1 ⟨w.2.2, w.2.1⟩ } : Storage K V).data.get w1.1 = none := by
      intro w1 hw1
      have hne : w1.1 ≠ w.1 := fun e =>
        hd'.1 (List.mem_map.mpr ⟨w1, hw1, e⟩)
      show (s.data.set w.1 _).get w1.1 = none
      rw [GoMap.get_set_ne s.data w.1 w1.1 _ hne]
      exact hnew w1 (List.mem_cons_of_mem _ hw1)
    obtain ⟨s2, h2, hmu2, hlen⟩ :=
      ih ({ s with data := s.data.set w.1 ⟨w.2.2, w.2.1⟩ }) h hd'.2 hnew1
    refine ⟨s2, ?_, hmu2, ?_⟩
    · simp only [storeAll, h1, Option.bind_eq_bind, Option.some_bind]
      exact h2
    · rw [hlen]
      show (s.data.set w.1 _).len + rest.length = s.data.len + (rest.length + 1)
      rw [GoMap.len_set_absent s.data w.1 _ (hnew w (List.mem_cons_self _ _))]
      omega

/-- C17: from a storage with an empty map and the lock free, (1) every run of
`Store`, `StoreOrUpdate`, `Delete` and sweep calls returns, and afterwards
`Range` with an always-true visitor makes as many calls as there are distinct
keys with an entry, for every walk order; a key counts exactly when `Load`
would find it; (2) on any storage, `Store` and `StoreOrUpdate` on a key that has
an entry leave the number of entries as it was; (3) storing `n` pairwise
distinct keys gives a count of `n`. -/
theorem one_entry_per_key [Inhabited V] (s0 : Storage K V)
    (h0 : s0.mu = RWMutex.unlocked) (he : s0.data = GoMap.empty) :
    (∀ (τ : Type) (calls : List (Call K V τ)), (∀ c ∈ calls, c.isWrite = true) →
      ∃ s1, runCalls s0 calls = some s1 ∧
        (∀ k, k ∈ (s1.data.entries.map Prod.fst).toFinset ↔ ∃ c, s1.data.get k = some c) ∧
        ∀ (fn : σ → K → V → Bool × σ) (st : σ) (order : List (K × storageItemContainer V)),
          s1.data.IterOrder order → (∀ st k v, (fn st k v).1 = true) →
          ∃ st1 visits, Range s1 fn st order = some (s1, st1, visits) ∧
            visits.length = distinctKeys s1) ∧
      (∀ (s : Storage K V) (k : K) (v : V) (now : Time) (c : storageItemContainer V),
        s.mu = RWMutex.unlocked → s.data.get k = some c →
        (∃ s1, Store s k v now = some s1 ∧ s1.data.len = s.data.len) ∧
        ∀ fn, ∃ s1, StoreOrUpdate s k v fn now = some s1 ∧ s1.data.len = s.data.len) ∧
      (∀ (writes : List (K × V × Time)), (writes.map fun w => w.1).Nodup →
        ∃ s1, storeAll s0 writes = some s1 ∧ distinctKeys s1 = writes.length ∧
          ∀ (fn : σ → K → V → Bool × σ) (st : σ) (order : List (K × storageItemContainer V)),
            s1.data.IterOrder order → (∀ st k v, (fn st k v).1 = true) →
            ∃ st1 visits, Range s1 fn st order = some (s1, st1, visits) ∧
              visits.length = writes.length) := by
  refine ⟨?_, ?_, ?_⟩
  · intro τ calls hw
    have hl : ∀ c ∈ calls, c.isLoad = false := by
      intro c hc
      have := hw c hc
      cases c <;> simp_all [Call.isWrite, Call.isLoad]
    obtain ⟨s1, h1, hmu⟩ := runCalls_returns s0 calls h0 hl
    refine ⟨s1, h1, ?_, ?_⟩
    · intro k
      rw [List.mem_toFinset]
      exact mem_keys_iff s1.data k
    · intro fn st order ho ht
      exact Range_count s1 fn st order (by rw [hmu]; rfl) ho ht
  · intro s k v now c hu hc
    refine ⟨⟨_, Store_unlocked s k v now hu, GoMap.len_set_present s.data k _ c hc⟩, ?_⟩
    intro fn
    cases fn with
    | none => exact ⟨_, StoreOrUpdate_present_nil s k v now c hu hc, rfl⟩
    | some f =>
      exact ⟨_, StoreOrUpdate_present s k v f now c hu hc,
        GoMap.len_set_present s.data k _ c hc⟩
  · intro writes hd
    have hnew : ∀ w ∈ writes, s0.data.get w.1 = none := by
      intro w _
      rw [he]
      rfl
    obtain ⟨s1, h1, hmu, hlen⟩ := storeAll_len s0 writes h0 hd hnew
    have hcount : distinctKeys s1 = writes.length := by
      rw [distinctKeys_eq_len, hlen, he]
      simp [GoMap.len, GoMap.empty]
    refine ⟨s1, h1, hcount, ?_⟩
    intro fn st order ho ht
    obtain ⟨st1, visits, hr, hv⟩ := Range_count s1 fn st order (by rw [hmu]; rfl) ho ht
    exact ⟨st1, visits, hr, hv.trans hcount⟩

end OneEntryPerKey

/-! ## The timestamp of an entry never goes back -/

section Timestamps

variable {K V : Type} [DecidableEq K]

/-- C18: let `k` have an entry `c`, written at `t = c.lastUpdate`, on a storage
whose lock is free.  A `Store` or a `StoreOrUpdate` (with any callback, nil or
not) on `k` at a clock reading `now >= t` returns and leaves `k` with an entry
whose `lastUpdate` is at least `t`.  A `Store`, `StoreOrUpdate` or `Delete` on
another key, a `Load` of any key and a `Range` with any visitor return and
leave `k` with the entry `c` itself, so with `lastUpdate = t`. -/
theorem lastUpdate_never_decreases [Inhabited V] (s : Storage K V) (k : K)
    (c : storageItemContainer V) (h : s.mu = RWMutex.unlocked) (hc : s.data.get k = some c) :
    (∀ v now, c.lastUpdate ≤ now →
      ∃ s1 c1, Store s k v now = some s1 ∧ s1.data.get k = some c1 ∧
        c.lastUpdate ≤ c1.lastUpdate) ∧
      (∀ v fn now, c.lastUpdate ≤ now →
        ∃ s1 c1, StoreOrUpdate s k v fn now = some s1 ∧ s1.data.get k = some c1 ∧
          c.lastUpdate ≤ c1.lastUpdate) ∧
      (∀ k1 v now, k1 ≠ k → ∃ s1, Store s k1 v now = some s1 ∧ s1.data.get k = some c) ∧
      (∀ k1 v fn now, k1 ≠ k →
        ∃ s1, StoreOrUpdate s k1 v fn now = some s1 ∧ s1.data.get k = some c) ∧
      (∀ k1, k1 ≠ k → ∃ s1, Delete s k1 = some s1 ∧ s1.data.get k = some c) ∧
      (∀ k1, ∃ s1 v found, Load s k1 = some (s1, v, found) ∧ s1.data.get k = some c) ∧
      (∀ (σ : Type) (fn : σ → K → V → Bool × σ) (st : σ)
          (order : List (K × storageItemContainer V)),
        ∃ s1 st1 calls, Range s fn st order = some (s1, st1, calls) ∧
          s1.data.get k = some c) := by
  have hw : s.mu.writer = false := by rw [h]; rfl
  refine ⟨?_, ?_, ?_, ?_, ?_, ?_, ?_⟩
  · intro v now hle
    exact ⟨_, _, Store_unlocked s k v now h, GoMap.get_set_same s.data k _, hle⟩
  · intro v fn now hle
    cases fn with
    | none => exact ⟨_, c, StoreOrUpdate_present_nil s k v now c h hc, hc, le_refl _⟩
    | some f =>
      exact ⟨_, _, StoreOrUpdate_present s k v f now c h hc, GoMap.get_set_same s.data k _, hle⟩
  · intro k1 v now hne
    refine ⟨_, Store_unlocked s k1 v now h, ?_⟩
    show (s.data.set k1 _).get k = some c
    rw [GoMap.get_set_ne s.data k1 k _ hne.symm]
    exact hc
  · intro k1 v fn now hne
    obtain ⟨s1, h1, _, _, _, hd⟩ := StoreOrUpdate_unlocked s k1 v fn now h
    refine ⟨s1, h1, ?_⟩
    rcases hd with e | ⟨c2, e⟩
    · rw [e]; exact hc
    · rw [e, GoMap.get_set_ne s.data k1 k _ hne.symm]; exact hc
  · intro k1 hne
    refine ⟨_, Delete_unlocked s k1 h, ?_⟩
    show (s.data.delete k1).get k = some c
    rw [GoMap.get_delete_ne s.data k1 k hne.symm]
    exact hc
  · intro k1
    cases hc1 : s.data.get k1 with
    | none => exact ⟨_, _, _, Load_no_writer_miss s k1 hw hc1, hc⟩
    | some c1 => exact ⟨_, _, _, Load_no_writer_hit s k1 c1 hw hc1, hc⟩
  · intro σ fn st order
    exact ⟨s, _, _, Range_no_writer s fn st order hw, hc⟩

end Timestamps

/-! ## The lock after a call -/

section LockAfterCall

variable {K V σ : Type} [DecidableEq K]

/-- The calls that give the lock back: `Store`, `StoreOrUpdate`, `Delete`, a
sweep pass, `Range`, and `Load` of a key that has an entry all return a storage
with the lock as they found it. -/
theorem lock_restored [Inhabited V] (s : Storage K V) (h : s.mu = RWMutex.unlocked) :
    (∀ k v now, ∃ s1, Store s k v now = some s1 ∧ s1.mu = s.mu) ∧
      (∀ k v fn now, ∃ s1, StoreOrUpdate s k v fn now = some s1 ∧ s1.mu = s.mu) ∧
      (∀ k, ∃ s1, Delete s k = some s1 ∧ s1.mu = s.mu) ∧
      (∀ (fn : σ → K → V → Bool × σ) st order,
        ∃ s1 st1 calls, Range s fn st order = some (s1, st1, calls) ∧ s1.mu = s.mu) ∧
      (∀ k c, s.data.get k = some c →
        ∃ s1 v, Load s k = some (s1, v, true) ∧ s1.mu = s.mu) := by
  refine ⟨?_, ?_, ?_, ?_, ?_⟩
  · intro k v now
    exact ⟨_, Store_unlocked s k v now h, rfl⟩
  · intro k v fn now
    obtain ⟨s1, h1, hmu, _⟩ := StoreOrUpdate_unlocked s k v fn now h
    exact ⟨s1, h1, hmu⟩
  · intro k
    exact ⟨_, Delete_unlocked s k h, rfl⟩
  · intro fn st order
    exact ⟨s, _, _, Range_no_writer s fn st order (by rw [h]; rfl), rfl⟩
  · intro k c hc
    exact ⟨s, _, Load_hit s k c h hc, rfl⟩

/-- After `Load` of a key with no entry the read lock stays held, and no call
that needs the write lock returns any more. -/
theorem Load_miss_blocks_writers [Inhabited V] (s : Storage K V) (k : K)
    (h : s.mu = RWMutex.unlocked) (hc : s.data.get k = none) :
    ∃ s1, Load s k = some (s1, default, false) ∧ s1.mu = ⟨1, false⟩ ∧
      (∀ k1 v now, Store s1 k1 v now = none) ∧
      (∀ k1 v fn now, StoreOrUpdate s1 k1 v fn now = none) ∧
      (∀ k1, Delete s1 k1 = none) ∧
      (∀ now order, gcTick s1 now order = none) := by
  refine ⟨_, Load_miss s k h hc, rfl, ?_, ?_, ?_, ?_⟩
  · intro k1 v now; simp [Store, RWMutex.Lock]
  · intro k1 v fn now; simp [StoreOrUpdate, RWMutex.Lock]
  · intro k1; simp [Delete, RWMutex.Lock]
  · intro now order; simp [gcTick, RWMutex.Lock]

end LockAfterCall

/-- C19: the claim that every call leaves the lock as it found it fails for
`Load` of a key with no entry.  On the empty storage `Load(7)` returns
`(nil, false)` and the lock, free before, now has one read hold; the `Store`
and the `Delete` issued after it do not return, while `Load` of a key that has
an entry (key 1 of the sample storage) does give the lock back. -/
theorem Load_miss_keeps_the_read_lock :
    emptyStorage.mu = ⟨0, false⟩ ∧
      Load emptyStorage 7 = some ({ emptyStorage with mu := ⟨1, false⟩ }, 0, false) ∧
      Store { emptyStorage with mu := ⟨1, false⟩ } 7 1 0 = none ∧
      Delete { emptyStorage with mu := ⟨1, false⟩ } 7 = none ∧
      Load sampleStorage 1 = some (sampleStorage, 5, true) :=
  ⟨rfl, rfl, rfl, rfl, rfl⟩

/-! ## Load, statement by statement: where the value is read -/

namespace Stepwise

/-- Run without interruption, the two parts of `Load` give what `Load` gives. -/
theorem Load_onePtr : Load onePtr 1 = some (onePtr, 5, true) := rfl

/-- When the lookup of `Load` finds the key, it returns with the lock as it
found it: the read lock is released before the value is read. -/
theorem LoadLookup_releases {K V : Type} [DecidableEq K] (s s1 : PtrStorage K V) (k : K)
    (p : Nat) (h : LoadLookup s k = some (s1, some p)) : s1 = s := by
  obtain ⟨⟨r, w⟩, data, heap⟩ := s
  by_cases hw : w = false
  · subst hw
    cases hc : data.get k with
    | none => simp [LoadLookup, RWMutex.RLock, hc] at h
    | some q =>
      simp [LoadLookup, RWMutex.RLock, RWMutex.RUnlock, hc] at h
      exact h.1.symm
  · simp [LoadLookup, RWMutex.RLock, hw] at h

end Stepwise

/-- C20: the claim that `Load` reads the value while it holds the read lock
fails.  On the storage where key 1 points to a container holding 5: the lookup
of `Load(1)` returns the pointer with the lock free again (no read hold left);
run on, `Load` returns `(5, true)`; but a `StoreOrUpdate(1, 3, +)` started at
that point takes the write lock, returns, and the read that `Load` then does
gives `(8, true)`; and after a `Delete(1)` started at that point the map has no
entry for key 1 while `Load` still returns `(5, true)`. -/
theorem Load_reads_the_value_after_unlock :
    Stepwise.LoadLookup Stepwise.onePtr 1 = some (Stepwise.onePtr, some 0) ∧
      Stepwise.onePtr.mu = ⟨0, false⟩ ∧
      Stepwise.LoadReturn Stepwise.onePtr (some 0) = some (5, true) ∧
      (∃ s1, Stepwise.StoreOrUpdate Stepwise.onePtr 1 3 (some fun old new => old + new) 20
          = some s1 ∧
        Stepwise.LoadReturn s1 (some 0) = some (8, true)) ∧
      (∃ s2, Stepwise.Delete Stepwise.onePtr 1 = some s2 ∧ s2.data.get 1 = none ∧
        Stepwise.LoadReturn s2 (some 0) = some (5, true)) :=
  ⟨rfl, rfl, rfl, ⟨_, rfl, rfl⟩, ⟨_, rfl, rfl, rfl⟩⟩

/-! ## The later theorems on the sample states -/

/-- Witness of C11 on the sample storage: key 1 is deleted, key 2 stays. -/
theorem Delete_idempotent_local_witness :
    sampleStorage.mu = RWMutex.unlocked ∧
      ∃ s1, Delete sampleStorage 1 = some s1 ∧
        (sampleStorage.data.get 1 = none → s1 = sampleStorage) ∧
        Delete s1 1 = some s1 ∧
        ∀ k1, k1 ≠ 1 → s1.data.get k1 = sampleStorage.data.get k1 :=
  ⟨rfl, Delete_idempotent_local sampleStorage 1 rfl⟩

/-- Witness of C12 on the sample storage: `Load` of key 9, which has no entry,
and a `Range` that stops at its second call. -/
theorem reads_leave_the_map_witness :
    sampleStorage.mu.writer = false ∧
      (∃ s1 v found, Load sampleStorage 9 = some (s1, v, found) ∧
        s1.data = sampleStorage.data ∧ s1.gcInterval = sampleStorage.gcInterval ∧
        s1.entryTTL = sampleStorage.entryTTL) ∧
      (∃ st1 calls, Range sampleStorage stopAtSecond 0 sampleStorage.data.entries
        = some (sampleStorage, st1, calls)) :=
  ⟨rfl, (reads_leave_the_map sampleStorage rfl).1 9,
    (reads_leave_the_map sampleStorage rfl).2 Nat stopAtSecond 0 sampleStorage.data.entries⟩

/-- Witness of C13 on the sample storage: key 9 has no entry. -/
theorem Load_absent_is_nil_witness :
    sampleStorage.mu.writer = false ∧ sampleStorage.data.get 9 = none ∧
      (∃ s1, Load sampleStorage 9 = some (s1, default, false)) ∧
      (∃ s1 : Storage Nat Nat,
        Load (NewStorage ([OptionSpec.entryTTL 7].map OptionSpec.toFn)).1 9
          = some (s1, default, false)) :=
  ⟨rfl, rfl, (Load_absent_is_nil sampleStorage 9 rfl).1 rfl,
    (Load_absent_is_nil sampleStorage 9 rfl).2.2 [OptionSpec.entryTTL 7]⟩

/-- Witness of C14.  With no option, and with the one-millisecond options of
the GC test, the sweeper is started; with `WithEntryTTL(-1)` and with
`WithGCInterval(0)` it is not, and on the storage built with `WithGCInterval(0)`
key 1, stored first, is still there after the calls that follow. -/
theorem NewStorage_starts_sweeper_iff_witness :
    (NewStorage ([] : List (OptionFn Nat Nat))).2 = true ∧
      (NewStorage ([] : List (OptionFn Nat Nat))).1.gcInterval = 3600000000000 ∧
      (NewStorage ([OptionSpec.gcInterval 1000000, OptionSpec.entryTTL 1000000].map
        OptionSpec.toFn) : Storage Nat Nat × Bool).2 = true ∧
      ¬ (NewStorage ([OptionSpec.entryTTL (-1)].map OptionSpec.toFn) :
        Storage Nat Nat × Bool).2 = true ∧
      (NewStorage [WithGCInterval 0] : Storage Nat Nat × Bool).1.gcInterval ≤ 0 ∧
      (NewStorage [WithGCInterval 0] : Storage Nat Nat × Bool).2 = false ∧
      ∃ s1 s2, runCalls (NewStorage [WithGCInterval 0]).1 benchPre = some s1 ∧
        runCalls s1 benchPost = some s2 ∧ s1.data.get 1 = some ⟨0, 1⟩ ∧
        ∃ c1, s2.data.get 1 = some c1 :=
  ⟨(NewStorage_starts_sweeper_iff ([] : List (OptionFn Nat Nat))).2.1.mpr
      ⟨by decide, by decide⟩,
    congrArg Storage.gcInterval (NewStorage_starts_sweeper_iff ([] : List (OptionFn Nat Nat))).1,
    ((NewStorage_starts_sweeper_iff ([] : List (OptionFn Nat Nat))).2.2.1
      [OptionSpec.gcInterval 1000000, OptionSpec.entryTTL 1000000]).mpr ⟨by decide, by decide⟩,
    fun hon => absurd
      (((NewStorage_starts_sweeper_iff ([] : List (OptionFn Nat Nat))).2.2.1
        [OptionSpec.entryTTL (-1)]).mp hon).2 (by decide),
    by decide, rfl,
    { mu := RWMutex.unlocked, data := ⟨[(1, ⟨0, 1⟩)], by decide⟩, gcInterval := 0,
      entryTTL := defaultEntryTTL },
    { mu := ⟨1, false⟩, data := ⟨[(1, ⟨0, 1⟩), (2, ⟨5, 2⟩)], by decide⟩, gcInterval := 0,
      entryTTL := defaultEntryTTL },
    rfl, rfl, rfl,
    ((NewStorage_starts_sweeper_iff [WithGCInterval 0]).2.2.2.2.1 (Or.inl (by decide))).2 Nat
      benchPre benchPost _ _ (by decide) rfl rfl 1 ⟨0, 1⟩ rfl⟩

/-- Witness of C16 on the sample storage: keys 3 and 4 are stored, in the
order 4 then 3. -/
theorem Stores_to_distinct_keys_witness :
    sampleStorage.mu = RWMutex.unlocked ∧
      ([(3, 30, 100), (4, 40, 101)] : List (Nat × Nat × Time)).Perm
        [(4, 40, 101), (3, 30, 100)] ∧
      ∃ s1, storeAll sampleStorage [(3, 30, 100), (4, 40, 101)] = some s1 ∧
        (∀ w ∈ ([(4, 40, 101), (3, 30, 100)] : List (Nat × Nat × Time)),
          Load s1 w.1 = some (s1, w.2.1, true)) ∧
        (∀ k, k ∉ ([(4, 40, 101), (3, 30, 100)] : List (Nat × Nat × Time)).map (fun w => w.1) →
          s1.data.get k = sampleStorage.data.get k) :=
  ⟨rfl, by decide,
    Stores_to_distinct_keys sampleStorage [(4, 40, 101), (3, 30, 100)]
      [(3, 30, 100), (4, 40, 101)] rfl (by decide) (by decide)⟩

/-- Witness of C17, the Range test: four distinct keys stored into the empty
storage, then `Range` counts four calls. -/
theorem one_entry_per_key_witness :
    emptyStorage.mu = RWMutex.unlocked ∧ emptyStorage.data = GoMap.empty ∧
      ∃ s1, storeAll emptyStorage rangeTestWrites = some s1 ∧ distinctKeys s1 = 4 ∧
        ∃ st1 visits, Range s1 countAll 0 s1.data.entries = some (s1, st1, visits) ∧
          visits.length = 4 := by
  refine ⟨rfl, rfl, ?_⟩
  obtain ⟨s1, h1, hk, hr⟩ :=
    (one_entry_per_key (σ := Nat) emptyStorage rfl rfl).2.2 rangeTestWrites (by decide)
  exact ⟨s1, h1, hk, hr countAll 0 s1.data.entries (List.Perm.refl _) (fun _ _ _ => rfl)⟩

/-- Witness of C18 on the sample storage: key 1 was written at 10; a `Store` to
it at 15 leaves a timestamp of at least 10, a `Store` to key 2 leaves its entry
as it was. -/
theorem lastUpdate_never_decreases_witness :
    sampleStorage.mu = RWMutex.unlocked ∧ sampleStorage.data.get 1 = some ⟨10, 5⟩ ∧
      (∃ s1 c1, Store sampleStorage 1 9 15 = some s1 ∧ s1.data.get 1 = some c1 ∧
        (10 : Time) ≤ c1.lastUpdate) ∧
      (∃ s1, Store sampleStorage 2 9 15 = some s1 ∧ s1.data.get 1 = some ⟨10, 5⟩) :=
  ⟨rfl, rfl,
    (lastUpdate_never_decreases sampleStorage 1 ⟨10, 5⟩ rfl rfl).1 9 15 (by decide),
    (lastUpdate_never_decreases sampleStorage 1 ⟨10, 5⟩ rfl rfl).2.2.1 2 9 15 (by decide)⟩

end gcmap
